import Mathlib

/-!
# TM1650 seven-segment display driver

A shallow embedding of `src/TM1650.h` (the `TM1650<WireType>` class template).

Conventions of the embedding

* A byte (`uint8_t`, `char` in its unsigned representation) is a `Nat` below 256.
  Every byte the driver computes is an AND/OR of masked bytes, so no store can
  overflow; the one place where 8-bit wrap-around matters is the loop counter
  of `setBrightnessGradually`, which is reduced modulo 256 explicitly.
* A `char *` argument is the list of bytes found at the pointer; the byte that
  follows the end of the list is the terminating NUL, so reading index `i` is
  `getD i 0`.
* The fixed-size member arrays are lists (`iString` 129 bytes, `iBuffer` 17
  bytes, `iCtrl` 16 bytes); `TM1650.WF` records the declared sizes.
* `iPosition` is an offset into `iString`, `none` being the null pointer.
* The `WireType` collaborator is replaced by the transcript of what the driver
  asked of it: a `beginTransmission/write/endTransmission` triple is one
  `WireEvent.write`, a `beginTransmission/endTransmission` pair without payload is
  a `WireEvent.probe`, and `delay(ms)` is an `WireEvent.delay`.
* Undefined behaviour (dereferencing the null `iPosition`, indexing `iBuffer`
  outside the array) is `none`.
-/

/-! ## Constants -/

/-- Address of the left-most digit. -/
def TM1650_DISPLAY_BASE : Nat := 0x34
/-- Address of the control register of the left-most digit. -/
def TM1650_DCTRL_BASE : Nat := 0x24
/-- Maximum number of digits. -/
def TM1650_NUM_DIGITS : Nat := 16
/-- Capacity of the scroll text, terminator excluded. -/
def TM1650_MAX_STRING : Nat := 128

def TM1650_BIT_ONOFF : Nat := 0b00000001
def TM1650_MSK_ONOFF : Nat := 0b11111110
def TM1650_BIT_DOT : Nat := 0b00000001
def TM1650_MSK_DOT : Nat := 0b11110111
def TM1650_BRIGHT_SHIFT : Nat := 4
def TM1650_MSK_BRIGHT : Nat := 0b10001111
def TM1650_MIN_BRIGHT : Nat := 0
def TM1650_MAX_BRIGHT : Nat := 7

/-- The ASCII to segment code table, 128 entries. -/
def TM1650_CDigits : List Nat :=
  [0x00, 0x00, 0x00, 0x00, 0x00, 0x00, 0x00, 0x00, 0x00, 0x00, 0x00, 0x00, 0x00, 0x00, 0x00, 0x00,
   0x00, 0x00, 0x00, 0x00, 0x00, 0x00, 0x00, 0x00, 0x00, 0x00, 0x00, 0x00, 0x00, 0x00, 0x00, 0x00,
   0x00, 0x82, 0x21, 0x00, 0x00, 0x00, 0x00, 0x02, 0x39, 0x0F, 0x00, 0x00, 0x00, 0x40, 0x80, 0x00,
   0x3F, 0x06, 0x5B, 0x4F, 0x66, 0x6D, 0x7D, 0x07, 0x7f, 0x6f, 0x00, 0x00, 0x00, 0x48, 0x00, 0x53,
   0x00, 0x77, 0x7C, 0x39, 0x5E, 0x79, 0x71, 0x6F, 0x76, 0x06, 0x1E, 0x00, 0x38, 0x00, 0x54, 0x3F,
   0x73, 0x67, 0x50, 0x6D, 0x78, 0x3E, 0x00, 0x00, 0x00, 0x6E, 0x00, 0x39, 0x00, 0x0F, 0x00, 0x08,
   0x63, 0x5F, 0x7C, 0x58, 0x5E, 0x7B, 0x71, 0x6F, 0x74, 0x02, 0x1E, 0x00, 0x06, 0x00, 0x54, 0x5C,
   0x73, 0x67, 0x50, 0x6D, 0x78, 0x1C, 0x00, 0x00, 0x00, 0x6E, 0x00, 0x39, 0x30, 0x0F, 0x00, 0x00]

/-! ## The bus transcript -/

/-- What the driver asks of the `WireType` collaborator and of `delay`. -/
inductive WireEvent where
  | probe (addr : Nat)
  | write (addr : Nat) (value : Nat)
  | delay (ms : Nat)
deriving DecidableEq

/-- Number of payload bytes in a transcript. -/
def bytesWritten (w : List WireEvent) : Nat :=
  (w.filter (fun e => match e with
    | WireEvent.write _ _ => true
    | _ => false)).length

/-- The byte most recently written to the register at `addr`, if any. -/
def lastWrite (w : List WireEvent) (addr : Nat) : Option Nat :=
  w.foldl (fun acc e => match e with
    | WireEvent.write a v => if a = addr then some v else acc
    | _ => acc) none

/-! ## C string helpers -/

/-- Length of the C string held in `s`: the bytes before the first NUL. -/
def strlen (s : List Nat) : Nat :=
  (s.takeWhile (fun c => c ≠ 0)).length

/-- The `n` bytes that `strncpy(dst, src, n)` stores at `dst`: the string
`src` cut at `n` bytes, padded with NULs up to `n`. -/
def strncpy (src : List Nat) (n : Nat) : List Nat :=
  ((src.takeWhile (fun c => c ≠ 0)).take n) ++
    List.replicate (n - ((src.takeWhile (fun c => c ≠ 0)).take n).length) 0

/-! ## Driver state -/

/-- The data members of `class TM1650`, `GenericWire` being the transcript. -/
structure TM1650 where
  wire : List WireEvent
  iPosition : Option Nat
  iActive : Bool
  iNumDigits : Nat
  iBrightness : Nat
  iString : List Nat
  iBuffer : List Nat
  iCtrl : List Nat
deriving DecidableEq

namespace TM1650

/-- The declared sizes of the member arrays and the constructor's bound on
the digit count. -/
def WF (s : TM1650) : Prop :=
  s.iNumDigits ≤ TM1650_NUM_DIGITS ∧ s.iBuffer.length = TM1650_NUM_DIGITS + 1 ∧
    s.iCtrl.length = TM1650_NUM_DIGITS ∧ s.iString.length = TM1650_MAX_STRING + 1

instance (s : TM1650) : Decidable (WF s) := by
  unfold WF; infer_instance

/-- One register write: `beginTransmission(addr); write(value); endTransmission()`. -/
def send (addr value : Nat) (s : TM1650) : TM1650 :=
  { s with wire := s.wire ++ [WireEvent.write addr value] }

/-- The loop `for (int i = 0; i < n; i++) body`, without `break`. -/
def forLoop (n : Nat) (body : Nat → TM1650 → TM1650) (s : TM1650) : TM1650 :=
  (List.range n).foldl (fun acc i => body i acc) s

/-- Constructor: only `iNumDigits` is initialised, every other member keeps
whatever the storage `mem` held. -/
def new (aNumDigits : Nat) (mem : TM1650) : TM1650 :=
  { mem with iNumDigits := if aNumDigits > TM1650_NUM_DIGITS then TM1650_NUM_DIGITS else aNumDigits }

def getBrightness (s : TM1650) : Nat := s.iBrightness

/-- The read `iBuffer[aPos]`; the statements below use it inside the array only. -/
def getPosition (aPos : Nat) (s : TM1650) : Nat := s.iBuffer.getD aPos 0

def getNumPositions (s : TM1650) : Nat := s.iNumDigits

/-! ## Operations -/

/-- Body of the loop of `clear`. -/
def clearBody (i : Nat) (s : TM1650) : TM1650 :=
  send (TM1650_DISPLAY_BASE + i) 0 { s with iBuffer := s.iBuffer.set i 0 }

def clear (s : TM1650) : TM1650 :=
  if !s.iActive then s else forLoop s.iNumDigits clearBody s

/-- Body of the loop of `displayOn`. -/
def displayOnBody (i : Nat) (s : TM1650) : TM1650 :=
  let s1 := { s with iCtrl := s.iCtrl.set i ((s.iCtrl.getD i 0 &&& TM1650_MSK_ONOFF) ||| TM1650_BIT_DOT) }
  send (TM1650_DCTRL_BASE + i) (s1.iCtrl.getD i 0) s1

def displayOn (s : TM1650) : TM1650 :=
  if !s.iActive then s else forLoop s.iNumDigits displayOnBody s

/-- Body of the loop of `displayOff`. -/
def displayOffBody (i : Nat) (s : TM1650) : TM1650 :=
  let s1 := { s with iCtrl := s.iCtrl.set i (s.iCtrl.getD i 0 &&& TM1650_MSK_ONOFF) }
  send (TM1650_DCTRL_BASE + i) (s1.iCtrl.getD i 0) s1

def displayOff (s : TM1650) : TM1650 :=
  if !s.iActive then s else forLoop s.iNumDigits displayOffBody s

def displayState (aState : Bool) (s : TM1650) : TM1650 :=
  if aState then displayOn s else displayOff s

/-- Body of the first loop of `init`. -/
def initBody (i : Nat) (s : TM1650) : TM1650 :=
  { s with iBuffer := s.iBuffer.set i 0, iCtrl := s.iCtrl.set i 0 }

/-- Initialisation; `ack` tells whether `endTransmission()` of the probe
returned 0. -/
def init (ack : Bool) (s : TM1650) : TM1650 :=
  let s1 := { s with iPosition := none }
  let s2 := forLoop s1.iNumDigits initBody s1
  let s3 := { s2 with wire := s2.wire ++ [WireEvent.probe TM1650_DISPLAY_BASE], iActive := ack }
  displayOn (clear s3)

/-- Body of the loop of `setBrightness`. -/
def setBrightnessBody (i : Nat) (s : TM1650) : TM1650 :=
  let v := (s.iCtrl.getD i 0 &&& TM1650_MSK_BRIGHT) ||| (s.iBrightness <<< TM1650_BRIGHT_SHIFT)
  let s1 := { s with iCtrl := s.iCtrl.set i v }
  send (TM1650_DCTRL_BASE + i) (s1.iCtrl.getD i 0) s1

def setBrightness (aValue : Nat) (s : TM1650) : TM1650 :=
  if !s.iActive then s else
    let s1 := { s with iBrightness := if aValue > TM1650_MAX_BRIGHT then TM1650_MAX_BRIGHT else aValue }
    forLoop s1.iNumDigits setBrightnessBody s1

/-- The `do ... while (i != aValue)` loop of `setBrightnessGradually`;
`up` is `step == 1`, the counter `i` is a `uint8_t` and wraps modulo 256.
`none` when the fuel runs out before the loop exits. -/
def gradualLoop (aValue : Nat) (up : Bool) : Nat → Nat → TM1650 → Option TM1650
  | 0, _, _ => none
  | fuel + 1, i, s =>
    let s1 := setBrightness i s
    let s2 := { s1 with wire := s1.wire ++ [WireEvent.delay 50] }
    let i1 := if up then (i + 1) % 256 else (i + 255) % 256
    if i1 ≠ aValue then gradualLoop aValue up fuel i1 s2 else some s2

/-- The counter takes at most 256 values before it meets the target, so 256
iterations are all the loop can make. -/
def setBrightnessGradually (aValue : Nat) (s : TM1650) : Option TM1650 :=
  if !s.iActive || aValue = s.iBrightness then some s else
    let aValue1 := if aValue > TM1650_MAX_BRIGHT then TM1650_MAX_BRIGHT else aValue
    let up := !(decide (aValue1 < s.iBrightness))
    gradualLoop aValue1 up 256 s.iBrightness s

def controlPosition (aPos aValue : Nat) (s : TM1650) : TM1650 :=
  if !s.iActive then s else
    if aPos < s.iNumDigits then
      send (TM1650_DCTRL_BASE + aPos) aValue { s with iCtrl := s.iCtrl.set aPos aValue }
    else s

def setPosition (aPos aValue : Nat) (s : TM1650) : TM1650 :=
  if !s.iActive then s else
    if aPos < s.iNumDigits then
      send (TM1650_DISPLAY_BASE + aPos) aValue { s with iBuffer := s.iBuffer.set aPos aValue }
    else s

/-- The access `iBuffer[aPos]` comes before any check; outside the array it
is undefined. -/
def setDot (aPos : Nat) (aState : Bool) (s : TM1650) : Option TM1650 :=
  if aPos < s.iBuffer.length then
    let v := (s.iBuffer.getD aPos 0 &&& 0x7F) ||| (if aState then 0b10000000 else 0)
    let s1 := { s with iBuffer := s.iBuffer.set aPos v }
    some (setPosition aPos (s1.iBuffer.getD aPos 0) s1)
  else none

/-- The loop of `displayString` from index `i` on, `remaining` being
`iNumDigits - i`; the `else break` branch returns. -/
def displayStringLoop (aString : List Nat) : Nat → Nat → TM1650 → TM1650
  | 0, _, s => s
  | remaining + 1, i, s =>
    let a := aString.getD i 0 &&& 0b01111111
    let dot := aString.getD i 0 &&& 0b10000000
    let s1 := { s with iBuffer := s.iBuffer.set i (TM1650_CDigits.getD a 0) }
    if a ≠ 0 then
      displayStringLoop aString remaining (i + 1)
        (send (TM1650_DISPLAY_BASE + i) (s1.iBuffer.getD i 0 ||| dot) s1)
    else s1

def displayString (aString : List Nat) (s : TM1650) : TM1650 :=
  if !s.iActive then s else displayStringLoop aString s.iNumDigits 0 s

/-- The string `iPosition` points at, given the offset. -/
def cursorText (off : Nat) (s : TM1650) : List Nat := s.iString.drop off

/-- Returns the new state and the `int` result. -/
def displayRunning (aString : List Nat) (s : TM1650) : TM1650 × Int :=
  let copied := strncpy aString (TM1650_MAX_STRING + 1) ++ s.iString.drop (TM1650_MAX_STRING + 1)
  let s1 := { s with iString := copied }
  let s2 := { s1 with iPosition := some 0 }
  let s3 := { s2 with iString := s2.iString.set TM1650_MAX_STRING 0 }
  let s4 := displayString (cursorText 0 s3) s3
  let l : Int := (strlen (cursorText 0 s4) : Int)
  if l ≤ (s4.iNumDigits : Int) then (s4, 0) else (s4, l - (s4.iNumDigits : Int))

/-- Returns the new state and the `int` result; `none` when `iPosition` is
the null pointer. -/
def displayRunningShift (s : TM1650) : Option (TM1650 × Int) :=
  match s.iPosition with
  | none => none
  | some off =>
    if strlen (cursorText off s) ≤ s.iNumDigits then some (s, 0) else
      let s1 := { s with iPosition := some (off + 1) }
      let s2 := displayString (cursorText (off + 1) s1) s1
      some (s2, (strlen (cursorText (off + 1) s2) : Int) - (s2.iNumDigits : Int))

/-- The state after `k` successive calls of `displayRunningShift`. -/
def shiftTimes : Nat → TM1650 → Option TM1650
  | 0, s => some s
  | k + 1, s =>
    match displayRunningShift s with
    | none => none
    | some (s1, _) => shiftTimes k s1

/-! ## Auxiliary definitions used in the statements and proofs -/

/-- Everything but the display mirror and the transcript is the same in both
states. -/
def displayFrame (s r : TM1650) : Prop :=
  r.iString = s.iString ∧ r.iPosition = s.iPosition ∧ r.iNumDigits = s.iNumDigits ∧
    r.iActive = s.iActive ∧ r.iBrightness = s.iBrightness ∧ r.iCtrl = s.iCtrl ∧
    r.iBuffer.length = s.iBuffer.length

/-- Everything but the control mirror and the transcript is the same in both
states. -/
def ctrlFrame (s r : TM1650) : Prop :=
  r.iString = s.iString ∧ r.iPosition = s.iPosition ∧ r.iNumDigits = s.iNumDigits ∧
    r.iActive = s.iActive ∧ r.iBrightness = s.iBrightness ∧ r.iBuffer = s.iBuffer ∧
    r.iCtrl.length = s.iCtrl.length

/-- One pass of a control-register loop: digit `i` gets `f` of its mirrored
control byte, and that byte is written to the control register. -/
def ctrlStep (f : Nat → Nat) (i : Nat) (s : TM1650) : TM1650 :=
  send (TM1650_DCTRL_BASE + i) (f (s.iCtrl.getD i 0))
    { s with iCtrl := s.iCtrl.set i (f (s.iCtrl.getD i 0)) }

/-- The segment pattern `displayString` looks up for index `p` of its argument. -/
def digitPattern (aString : List Nat) (p : Nat) : Nat :=
  TM1650_CDigits.getD (aString.getD p 0 &&& 0b01111111) 0

/-- The register write `displayString` emits for index `p` of its argument. -/
def digitWrite (aString : List Nat) (p : Nat) : WireEvent :=
  WireEvent.write (TM1650_DISPLAY_BASE + p)
    (digitPattern aString p ||| (aString.getD p 0 &&& 0b10000000))

/-! ## Sample drivers and texts -/

/-- A four-digit driver that is active, with the display on, every digit
blank and brightness 0. -/
def ready4 : TM1650 where
  wire := []
  iPosition := none
  iActive := true
  iNumDigits := 4
  iBrightness := 0
  iString := List.replicate 129 0
  iBuffer := List.replicate 17 0
  iCtrl := List.replicate 16 1

/-- A four-digit driver that is active, with the display on and showing "0000". -/
def shown4 : TM1650 where
  wire := []
  iPosition := none
  iActive := true
  iNumDigits := 4
  iBrightness := 0
  iString := List.replicate 129 0
  iBuffer := [0x3F, 0x3F, 0x3F, 0x3F, 0, 0, 0, 0, 0, 0, 0, 0, 0, 0, 0, 0, 0]
  iCtrl := List.replicate 16 1

/-- The bytes of "HELLOWORLD". -/
def helloWorld : List Nat := [0x48, 0x45, 0x4C, 0x4C, 0x4F, 0x57, 0x4F, 0x52, 0x4C, 0x44]

/-! ## Sequences of calls -/

/-- The calls an application can make on a driver. -/
inductive Op where
  | init (ack : Bool)
  | clear
  | displayOn
  | displayOff
  | displayState (aState : Bool)
  | displayString (aString : List Nat)
  | displayRunning (aString : List Nat)
  | displayRunningShift
  | setBrightness (aValue : Nat)
  | setBrightnessGradually (aValue : Nat)
  | controlPosition (aPos : Nat) (aValue : Nat)
  | setPosition (aPos : Nat) (aValue : Nat)
  | setDot (aPos : Nat) (aState : Bool)
deriving DecidableEq

/-- One call; `none` when its behaviour is undefined. -/
def Op.apply : Op → TM1650 → Option TM1650
  | Op.init ack, s => some (TM1650.init ack s)
  | Op.clear, s => some (TM1650.clear s)
  | Op.displayOn, s => some (TM1650.displayOn s)
  | Op.displayOff, s => some (TM1650.displayOff s)
  | Op.displayState aState, s => some (TM1650.displayState aState s)
  | Op.displayString aString, s => some (TM1650.displayString aString s)
  | Op.displayRunning aString, s => some (TM1650.displayRunning aString s).1
  | Op.displayRunningShift, s => (TM1650.displayRunningShift s).map Prod.fst
  | Op.setBrightness aValue, s => some (TM1650.setBrightness aValue s)
  | Op.setBrightnessGradually aValue, s => TM1650.setBrightnessGradually aValue s
  | Op.controlPosition aPos aValue, s => some (TM1650.controlPosition aPos aValue s)
  | Op.setPosition aPos aValue, s => some (TM1650.setPosition aPos aValue s)
  | Op.setDot aPos aState, s => TM1650.setDot aPos aState s

/-- A sequence of calls, first call first. -/
def run : List Op → TM1650 → Option TM1650
  | [], s => some s
  | op :: rest, s =>
    match op.apply s with
    | none => none
    | some s1 => run rest s1

/-- Whether a call is one of the mutating operations used within their
preconditions on an `n`-digit driver: not `init`, `setDot` at a digit position,
`displayRunningShift` only once the cursor is set. -/
def Op.guarded (n : Nat) (cursorSet : Bool) : Op → Bool
  | Op.init _ => false
  | Op.setDot aPos _ => decide (aPos < n)
  | Op.displayRunningShift => cursorSet
  | _ => true

/-- Whether a call sets the scroll cursor. -/
def Op.setsCursor : Op → Bool
  | Op.displayRunning _ => true
  | _ => false

/-- Whether every call of the sequence is guarded, the cursor being set from
the first `displayRunning` on. -/
def guardedSeq (n : Nat) : Bool → List Op → Bool
  | _, [] => true
  | cursorSet, op :: rest =>
    op.guarded n cursorSet && guardedSeq n (cursorSet || op.setsCursor) rest

/-- What holds of the inactive driver all along a guarded sequence: the
transcript `w`, the digit count, the size of the display mirror, and a cursor
that is set once `cursorSet` says so. -/
def idleInv (w : List WireEvent) (n len : Nat) (cursorSet : Bool) (t : TM1650) : Prop :=
  t.iActive = false ∧ t.wire = w ∧ t.iNumDigits = n ∧ t.iBuffer.length = len ∧
    (cursorSet = true → ∃ off, t.iPosition = some off)

/-! ## Auxiliary definitions for the fade -/

/-- One pass of the loop of `setBrightnessGradually`: `setBrightness(i); delay(50);`. -/
def fadeStep (i : Nat) (s : TM1650) : TM1650 :=
  let s1 := setBrightness i s
  { s1 with wire := s1.wire ++ [WireEvent.delay 50] }

/-- The state after the calls `setBrightness(a); delay(50);` made for the
arguments `a` of `args`, in order. -/
def fadeCalls (args : List Nat) (s : TM1650) : TM1650 :=
  args.foldl (fun t a => fadeStep a t) s

/-- Number of `delay(ms)` events in a transcript. -/
def delayCount (w : List WireEvent) (ms : Nat) : Nat :=
  (w.filter (fun e => decide (e = WireEvent.delay ms))).length

/-! ## Auxiliary definitions for the display mirror -/

/-- Whether `text` has a non-zero 7-bit code at each of its first `n` bytes, so
that the loop of `displayString` writes all `n` digits and never meets the
terminator. -/
def fillsDigits (n : Nat) (text : List Nat) : Bool :=
  (List.range n).all (fun i => text.getD i 0 &&& 0b01111111 != 0)

/-- Whether a call, made in state `s`, is one of the display operations used at
a digit position and with a text window that fills all digits. -/
def Op.showsFull (s : TM1650) : Op → Bool
  | Op.clear => true
  | Op.setPosition _ _ => true
  | Op.setDot aPos _ => decide (aPos < s.iNumDigits)
  | Op.displayString aString => fillsDigits s.iNumDigits aString
  | Op.displayRunning aString => fillsDigits s.iNumDigits aString
  | Op.displayRunningShift =>
    match s.iPosition with
    | none => false
    | some off =>
      decide (strlen (cursorText off s) ≤ s.iNumDigits) ||
        fillsDigits s.iNumDigits (cursorText (off + 1) s)
  | _ => false

/-- Whether every call of the sequence satisfies `Op.showsFull` in the state it
is made in. -/
def showsFullSeq : List Op → TM1650 → Bool
  | [], _ => true
  | op :: rest, s =>
    op.showsFull s &&
      (match op.apply s with
      | none => false
      | some s1 => showsFullSeq rest s1)

/-- The mirror of digit `i` is the last byte written to its display register,
the decimal-point bit of the written byte apart. -/
def mirrorsUpToDot (s : TM1650) (i : Nat) : Prop :=
  ∃ w, lastWrite s.wire (TM1650_DISPLAY_BASE + i) = some w ∧
    (w = getPosition i s ∨ w = getPosition i s ||| 0x80)

/-- What holds of the active driver all along a sequence of display
operations. -/
def mirrorInv (n len : Nat) (t : TM1650) : Prop :=
  t.iActive = true ∧ t.iNumDigits = n ∧ t.iBuffer.length = len ∧
    ∀ i, i < n → mirrorsUpToDot t i

/-! ## Auxiliary definitions for the construction-time state -/

/-- Storage as a driver object not yet constructed may find it: no member
initialised, the byte of `iBrightness` holding 200. -/
def rawStorage : TM1650 where
  wire := []
  iPosition := some 77
  iActive := false
  iNumDigits := 0xAA
  iBrightness := 200
  iString := List.replicate 129 0xAA
  iBuffer := List.replicate 17 0xAA
  iCtrl := List.replicate 16 0xAA

/-- The digit count is `n`, and the brightness is in range or still the byte
`b0` found in the storage. -/
def levelInv (n b0 : Nat) (t : TM1650) : Prop :=
  t.iNumDigits = n ∧ (t.iBrightness ≤ 7 ∨ t.iBrightness = b0)

/-! ## List and bit facts used below -/

theorem getD_set_self (l : List Nat) (i v : Nat) (h : i < l.length) :
    (l.set i v).getD i 0 = v := by
  simp [List.getElem?_set, h]

theorem getD_set_other (l : List Nat) (i j v : Nat) (h : i ≠ j) :
    (l.set i v).getD j 0 = l.getD j 0 := by
  simp [List.getElem?_set, h]

theorem forLoop_succ (n : Nat) (body : Nat → TM1650 → TM1650) (s : TM1650) :
    forLoop (n + 1) body s = body n (forLoop n body s) := by
  simp [forLoop, List.range_succ]

theorem forLoop_zero (body : Nat → TM1650 → TM1650) (s : TM1650) :
    forLoop 0 body s = s := by
  simp [forLoop]

theorem forLoop_invariant (P : TM1650 → Prop) (body : Nat → TM1650 → TM1650)
    (hstep : ∀ i s, P s → P (body i s)) (n : Nat) (s : TM1650) (h0 : P s) :
    P (forLoop n body s) := by
  induction n with
  | zero => simpa [forLoop_zero] using h0
  | succ k ih => rw [forLoop_succ]; exact hstep k _ ih

theorem strlen_eq_of (l : List Nat) :
    ∀ k : Nat, (∀ j, j < k → l.getD j 0 ≠ 0) → l.getD k 0 = 0 → strlen l = k := by
  induction l with
  | nil =>
    intro k h1 _
    cases k with
    | zero => rfl
    | succ k => exact absurd rfl (h1 0 (Nat.succ_pos k))
  | cons x xs ih =>
    intro k h1 h2
    cases k with
    | zero =>
      have hx : x = 0 := by simpa using h2
      simp [strlen, hx]
    | succ k =>
      have hx : x ≠ 0 := by simpa using h1 0 (Nat.succ_pos k)
      have hrec : strlen xs = k := by
        apply ih k
        · intro j hj
          have := h1 (j + 1) (Nat.succ_lt_succ hj)
          simpa using this
        · simpa using h2
      simp only [strlen] at hrec ⊢
      rw [List.takeWhile_cons]
      simp only [hx, ne_eq, not_false_eq_true, decide_True, if_true, List.length_cons, hrec]

theorem takeWhile_getD_ne (l : List Nat) :
    ∀ j, j < (l.takeWhile (fun c => c ≠ 0)).length →
      (l.takeWhile (fun c => c ≠ 0)).getD j 0 ≠ 0 := by
  intro j hj
  have hmem : (l.takeWhile (fun c => c ≠ 0))[j] ∈ l.takeWhile (fun c => c ≠ 0) :=
    List.getElem_mem hj
  have := List.mem_takeWhile_imp hmem
  rw [List.getD_eq_getElem?_getD, List.getElem?_eq_getElem hj]
  simpa using this


theorem strncpy_length (src : List Nat) (n : Nat) : (strncpy src n).length = n := by
  simp only [strncpy, List.length_append, List.length_replicate, List.length_take]
  omega

theorem padded_getD (t : List Nat) (n j : Nat) (hj : j < n) :
    (t.take n ++ List.replicate (n - (t.take n).length) 0).getD j 0 = t.getD j 0 := by
  by_cases h : j < t.length
  · rw [List.getD_append _ _ _ _ (by simp only [List.length_take]; omega)]
    simp only [List.getD_eq_getElem?_getD, List.getElem?_take, hj, if_true]
  · rw [List.getD_append_right _ _ _ _ (by simp only [List.length_take]; omega)]
    simp only [List.getD_eq_getElem?_getD, List.getElem?_replicate]
    rw [List.getElem?_eq_none (Nat.le_of_not_lt h)]
    split <;> rfl

theorem strncpy_getD (src : List Nat) (n j : Nat) (hj : j < n) :
    (strncpy src n).getD j 0 = (src.takeWhile (fun c => c ≠ 0)).getD j 0 :=
  padded_getD _ n j hj

/-- The scroll buffer as `displayRunning` leaves it. -/
theorem scrollBuffer_strlen (src old : List Nat) :
    strlen ((strncpy src (TM1650_MAX_STRING + 1) ++ old.drop (TM1650_MAX_STRING + 1)).set
      TM1650_MAX_STRING 0) = min (strlen src) TM1650_MAX_STRING := by
  have hlen := strncpy_length src (TM1650_MAX_STRING + 1)
  apply strlen_eq_of
  · intro j hj
    have hj1 : j < TM1650_MAX_STRING := lt_of_lt_of_le hj (Nat.min_le_right _ _)
    have hj2 : j < strlen src := lt_of_lt_of_le hj (Nat.min_le_left _ _)
    rw [getD_set_other _ _ _ _ (by omega)]
    rw [List.getD_append _ _ _ _ (by omega)]
    rw [strncpy_getD _ _ _ (by omega)]
    exact takeWhile_getD_ne src j hj2
  · by_cases h : strlen src < TM1650_MAX_STRING
    · rw [Nat.min_eq_left (Nat.le_of_lt h)]
      rw [getD_set_other _ _ _ _ (by omega)]
      rw [List.getD_append _ _ _ _ (by omega)]
      rw [strncpy_getD _ _ _ (by omega)]
      rw [List.getD_eq_getElem?_getD, List.getElem?_eq_none (by simp [strlen])]
      rfl
    · rw [Nat.min_eq_right (by omega)]
      exact getD_set_self _ _ _ (by simp only [List.length_append, hlen]; omega)


/-! ## `displayString` leaves everything but the mirror and the transcript alone -/

theorem displayFrame_refl (s : TM1650) : displayFrame s s :=
  ⟨rfl, rfl, rfl, rfl, rfl, rfl, rfl⟩

theorem displayFrame_trans {s t r : TM1650} (h1 : displayFrame s t) (h2 : displayFrame t r) :
    displayFrame s r := by
  obtain ⟨a1, a2, a3, a4, a5, a6, a7⟩ := h1
  obtain ⟨b1, b2, b3, b4, b5, b6, b7⟩ := h2
  exact ⟨b1.trans a1, b2.trans a2, b3.trans a3, b4.trans a4, b5.trans a5, b6.trans a6,
    b7.trans a7⟩

theorem displayStringLoop_frame (aString : List Nat) :
    ∀ (remaining i : Nat) (s : TM1650),
      displayFrame s (displayStringLoop aString remaining i s) := by
  intro remaining
  induction remaining with
  | zero => intro i s; exact displayFrame_refl s
  | succ k ih =>
    intro i s
    simp only [displayStringLoop]
    split
    · refine displayFrame_trans ?_ (ih (i + 1) _)
      refine ⟨rfl, rfl, rfl, rfl, rfl, rfl, ?_⟩
      simp [send]
    · refine ⟨rfl, rfl, rfl, rfl, rfl, rfl, ?_⟩
      simp

theorem displayString_frame (aString : List Nat) (s : TM1650) :
    displayFrame s (displayString aString s) := by
  unfold displayString
  split
  · exact displayFrame_refl s
  · exact displayStringLoop_frame aString _ _ s

theorem displayRunning_state (aString : List Nat) (s : TM1650) :
    (displayRunning aString s).1 =
      displayString
        (cursorText 0 { s with
          iString := (strncpy aString (TM1650_MAX_STRING + 1) ++
            s.iString.drop (TM1650_MAX_STRING + 1)).set TM1650_MAX_STRING 0,
          iPosition := some 0 })
        { s with
          iString := (strncpy aString (TM1650_MAX_STRING + 1) ++
            s.iString.drop (TM1650_MAX_STRING + 1)).set TM1650_MAX_STRING 0,
          iPosition := some 0 } := by
  simp only [displayRunning]
  split <;> rfl

theorem displayRunning_value (aString : List Nat) (s : TM1650) :
    (displayRunning aString s).2 =
      if (strlen (cursorText 0 (displayRunning aString s).1) : Int) ≤ s.iNumDigits then 0
      else (strlen (cursorText 0 (displayRunning aString s).1) : Int) - s.iNumDigits := by
  have hn : (displayRunning aString s).1.iNumDigits = s.iNumDigits := by
    rw [displayRunning_state]
    exact (displayString_frame _ _).2.2.1
  rw [← hn]
  simp only [displayRunning]
  split <;> simp_all

theorem displayRunning_strlen (aString : List Nat) (s : TM1650) :
    strlen (cursorText 0 (displayRunning aString s).1) =
      min (strlen aString) TM1650_MAX_STRING := by
  rw [displayRunning_state]
  simp only [cursorText, List.drop_zero]
  rw [(displayString_frame _ _).1]
  exact scrollBuffer_strlen aString s.iString

/-- C1 (as the code has it): `displayRunning` returns 0 when the text, cut at the
128 bytes the scroll buffer holds, fits the digit count, and otherwise that cut
length minus the digit count; active or not. -/
theorem displayRunning_returns_truncated_excess (aString : List Nat) (s : TM1650) :
    (displayRunning aString s).2 =
      if min (strlen aString) 128 ≤ s.iNumDigits then 0
      else ((min (strlen aString) 128 : Nat) : Int) - (s.iNumDigits : Int) := by
  rw [displayRunning_value, displayRunning_strlen]
  simp only [TM1650_MAX_STRING]
  split <;> split <;> omega

set_option maxRecDepth 8000 in
/-- C1 (as stated) fails: a text of 129 letters on four digits returns 124, not
the 125 that `length - digitCount` gives. -/
theorem displayRunning_long_text_counterexample :
    strlen (List.replicate 129 0x41) = 129 ∧ ready4.iNumDigits = 4 ∧
      (displayRunning (List.replicate 129 0x41) ready4).2 = 124 ∧
      ¬ ((displayRunning (List.replicate 129 0x41) ready4).2 =
        if strlen (List.replicate 129 0x41) ≤ ready4.iNumDigits then 0
        else ((strlen (List.replicate 129 0x41) : Nat) : Int) - (ready4.iNumDigits : Int)) := by
  rw [displayRunning_value, displayRunning_strlen]
  decide

/-! ## Scrolling -/

theorem strlen_tail (d : List Nat) (h : 0 < strlen d) : strlen d.tail = strlen d - 1 := by
  cases d with
  | nil => simp [strlen] at h
  | cons x xs =>
    by_cases hx : x = 0
    · simp [strlen, hx] at h
    · simp only [strlen, List.tail_cons]
      rw [List.takeWhile_cons]
      simp [hx]

theorem strlen_drop_succ (l : List Nat) (off : Nat) (h : 0 < strlen (l.drop off)) :
    strlen (l.drop (off + 1)) = strlen (l.drop off) - 1 := by
  rw [← strlen_tail _ h, List.tail_drop]

theorem strlen_drop_add (l : List Nat) (off : Nat) :
    ∀ m, m ≤ strlen (l.drop off) → strlen (l.drop (off + m)) = strlen (l.drop off) - m := by
  intro m
  induction m with
  | zero => intro _; rfl
  | succ m ih =>
    intro h
    have h1 := ih (by omega)
    rw [← Nat.add_assoc, strlen_drop_succ _ _ (by omega), h1]
    omega

theorem displayRunningShift_eq (s : TM1650) (off : Nat) (h : s.iPosition = some off) :
    displayRunningShift s =
      if strlen (cursorText off s) ≤ s.iNumDigits then some (s, 0)
      else some (displayString (cursorText (off + 1) s) { s with iPosition := some (off + 1) },
        (strlen (cursorText (off + 1) s) : Int) - (s.iNumDigits : Int)) := by
  have hf := displayString_frame (cursorText (off + 1) s) { s with iPosition := some (off + 1) }
  have h1 : (displayString (cursorText (off + 1) s)
      { s with iPosition := some (off + 1) }).iString = s.iString := hf.1
  have h3 : (displayString (cursorText (off + 1) s)
      { s with iPosition := some (off + 1) }).iNumDigits = s.iNumDigits := hf.2.2.1
  simp only [cursorText] at h1 h3
  simp only [displayRunningShift, h]
  split
  · rfl
  · simp only [cursorText, h1, h3]

/-- Where `k` calls of `displayRunningShift` leave the cursor. -/
theorem shiftTimes_cursor :
    ∀ (k : Nat) (s : TM1650) (off : Nat), s.iPosition = some off →
      ∃ sk, shiftTimes k s = some sk ∧
        sk.iPosition = some (off + min k (strlen (cursorText off s) - s.iNumDigits)) ∧
        sk.iString = s.iString ∧ sk.iNumDigits = s.iNumDigits ∧ sk.iActive = s.iActive ∧
        sk.iBuffer.length = s.iBuffer.length := by
  intro k
  induction k with
  | zero =>
    intro s off h
    exact ⟨s, rfl, by simpa using h, rfl, rfl, rfl, rfl⟩
  | succ k ih =>
    intro s off h
    simp only [shiftTimes, displayRunningShift_eq s off h]
    by_cases hfit : strlen (cursorText off s) ≤ s.iNumDigits
    · simp only [hfit, if_true]
      obtain ⟨sk, e1, e2, e3, e4, e5, e6⟩ := ih s off h
      refine ⟨sk, e1, ?_, e3, e4, e5, e6⟩
      rw [e2]
      congr 1
      omega
    · simp only [hfit, if_false]
      have hf := displayString_frame (cursorText (off + 1) s)
        { s with iPosition := some (off + 1) }
      obtain ⟨sk, e1, e2, e3, e4, e5, e6⟩ := ih
        (displayString (cursorText (off + 1) s) { s with iPosition := some (off + 1) })
        (off + 1) hf.2.1
      refine ⟨sk, e1, ?_, e3.trans hf.1, e4.trans hf.2.2.1, e5.trans hf.2.2.2.1,
        e6.trans hf.2.2.2.2.2.2⟩
      rw [e2]
      have hl : strlen (cursorText (off + 1)
          (displayString (cursorText (off + 1) s) { s with iPosition := some (off + 1) })) =
          strlen (cursorText off s) - 1 := by
        have h1 : (displayString (List.drop (off + 1) s.iString)
            { s with iPosition := some (off + 1) }).iString = s.iString := hf.1
        simp only [cursorText, h1]
        have hpos : 0 < strlen (s.iString.drop off) := by
          simp only [cursorText] at hfit
          omega
        exact strlen_drop_succ s.iString off hpos
      have h3 : (displayString (cursorText (off + 1) s)
          { s with iPosition := some (off + 1) }).iNumDigits = s.iNumDigits := hf.2.2.1
      rw [hl, h3]
      congr 1
      omega

/-- C2: after `displayRunning` returned `r`, the `k`-th call of
`displayRunningShift` (`k >= 1`) returns `max (r - k) 0`: the count goes down by
one per call until it is 0 and stays 0. -/
theorem displayRunningShift_counts_down (aString : List Nat) (s : TM1650) (k : Nat)
    (hk : 1 ≤ k) :
    ∃ sj s1, shiftTimes (k - 1) (displayRunning aString s).1 = some sj ∧
      displayRunningShift sj = some (s1, max ((displayRunning aString s).2 - (k : Int)) 0) := by
  have hpos : (displayRunning aString s).1.iPosition = some 0 := by
    rw [displayRunning_state]
    exact (displayString_frame _ _).2.1
  have hn : (displayRunning aString s).1.iNumDigits = s.iNumDigits := by
    rw [displayRunning_state]
    exact (displayString_frame _ _).2.2.1
  obtain ⟨sj, e1, e2, e3, e4, _, _⟩ := shiftTimes_cursor (k - 1) _ 0 hpos
  have hval := displayRunning_value aString s
  generalize (displayRunning aString s).2 = r at hval ⊢
  generalize hl : strlen (cursorText 0 (displayRunning aString s).1) = l at e2 hval
  rw [hn] at e2 e4
  have hcur : strlen (cursorText (0 + min (k - 1) (l - s.iNumDigits)) sj) =
      l - min (k - 1) (l - s.iNumDigits) := by
    simp only [cursorText, e3]
    simp only [cursorText] at hl
    rw [strlen_drop_add _ _ _ (by rw [hl]; omega), hl]
  by_cases hfit : strlen (cursorText (0 + min (k - 1) (l - s.iNumDigits)) sj) ≤ sj.iNumDigits
  · refine ⟨sj, sj, e1, ?_⟩
    rw [displayRunningShift_eq sj _ e2, if_pos hfit]
    rw [hcur, e4] at hfit
    have hv : max (r - (k : Int)) 0 = 0 := by
      split at hval <;> omega
    rw [hv]
  · have hcur1 : strlen (cursorText (0 + min (k - 1) (l - s.iNumDigits) + 1) sj) =
        l - min (k - 1) (l - s.iNumDigits) - 1 := by
      have hcur2 : strlen (sj.iString.drop (0 + min (k - 1) (l - s.iNumDigits))) =
          l - min (k - 1) (l - s.iNumDigits) := hcur
      have hp : 0 < strlen (sj.iString.drop (0 + min (k - 1) (l - s.iNumDigits))) := by
        have hfit2 := hfit
        rw [hcur, e4] at hfit2
        rw [hcur2]
        omega
      simp only [cursorText]
      rw [strlen_drop_succ sj.iString _ hp, hcur2]
    refine ⟨sj, displayString (cursorText (0 + min (k - 1) (l - s.iNumDigits) + 1) sj)
      { sj with iPosition := some (0 + min (k - 1) (l - s.iNumDigits) + 1) }, e1, ?_⟩
    rw [displayRunningShift_eq sj _ e2, if_neg hfit]
    rw [hcur, e4] at hfit
    have hv : max (r - (k : Int)) 0 =
        ((l - min (k - 1) (l - s.iNumDigits) - 1 : Nat) : Int) - (s.iNumDigits : Int) := by
      split at hval <;> omega
    rw [hcur1, e4, hv]

/-- C2 at "HELLOWORLD" on four digits, third call. -/
theorem displayRunningShift_counts_down_witness :
    1 ≤ 3 ∧ ∃ sj s1, shiftTimes (3 - 1) (displayRunning helloWorld ready4).1 = some sj ∧
      displayRunningShift sj = some (s1, max ((displayRunning helloWorld ready4).2 - ((3 : Nat) : Int)) 0) :=
  ⟨by decide, displayRunningShift_counts_down helloWorld ready4 3 (by decide)⟩

/-- "HELLOWORLD" on four digits: 6, then 5, 4, 3, 2, 1, 0, 0. -/
theorem helloWorld_countdown :
    (displayRunning helloWorld ready4).2 = 6 ∧
      (List.range 8).map (fun k =>
        ((shiftTimes k (displayRunning helloWorld ready4).1).bind displayRunningShift).map
          Prod.snd) =
        [some 5, some 4, some 3, some 2, some 1, some 0, some 0, some 0] := by
  decide


/-! ## What the loop of `displayString` does -/

theorem range_map_shift (W : Nat → WireEvent) (i c : Nat) :
    W i :: (List.range c).map (fun j => W (i + 1 + j)) =
      (List.range (c + 1)).map (fun j => W (i + j)) := by
  rw [List.range_succ_eq_map, List.map_cons, List.map_map]
  congr 1
  apply List.map_congr_left
  intro j _
  simp only [Function.comp, Nat.succ_eq_add_one]
  congr 1
  omega

theorem displayStringLoop_spec (aString : List Nat) :
    ∀ (remaining c i : Nat) (s : TM1650), c ≤ remaining →
      (∀ p, i ≤ p → p < i + c → aString.getD p 0 &&& 0b01111111 ≠ 0) →
      (c < remaining → aString.getD (i + c) 0 &&& 0b01111111 = 0) →
      i + remaining ≤ s.iBuffer.length →
      (displayStringLoop aString remaining i s).wire =
          s.wire ++ (List.range c).map (fun j => digitWrite aString (i + j)) ∧
        (∀ p, i ≤ p → p < i + c →
          (displayStringLoop aString remaining i s).iBuffer.getD p 0 = digitPattern aString p) ∧
        (∀ p, p < i ∨ i + c < p →
          (displayStringLoop aString remaining i s).iBuffer.getD p 0 = s.iBuffer.getD p 0) ∧
        (c < remaining →
          (displayStringLoop aString remaining i s).iBuffer.getD (i + c) 0 =
            TM1650_CDigits.getD 0 0) := by
  intro remaining
  induction remaining with
  | zero =>
    intro c i s hc _ _ _
    have hc0 : c = 0 := by omega
    subst hc0
    refine ⟨by simp [displayStringLoop], ?_, ?_, ?_⟩
    · intro p h1 h2; omega
    · intro p _; rfl
    · intro h; omega
  | succ r ih =>
    intro c i s hc hnz hz hlen
    cases c with
    | zero =>
      have ha : aString.getD i 0 &&& 0b01111111 = 0 := hz (Nat.succ_pos r)
      simp only [displayStringLoop, ha, ne_eq, not_true_eq_false, if_false]
      refine ⟨by simp, ?_, ?_, ?_⟩
      · intro p h1 h2; omega
      · intro p hp
        exact getD_set_other _ _ _ _ (by omega)
      · intro _
        exact getD_set_self _ _ _ (by omega)
    | succ c =>
      have ha : aString.getD i 0 &&& 0b01111111 ≠ 0 := hnz i (Nat.le_refl i) (by omega)
      have hself : (s.iBuffer.set i (TM1650_CDigits.getD (aString.getD i 0 &&& 0b01111111) 0)).getD
          i 0 = digitPattern aString i := getD_set_self _ _ _ (by omega)
      simp only [displayStringLoop, ha, ne_eq, not_false_eq_true, if_true]
      obtain ⟨h1, h2, h3, h4⟩ := ih c (i + 1)
        (send (TM1650_DISPLAY_BASE + i)
          ((s.iBuffer.set i (TM1650_CDigits.getD (aString.getD i 0 &&& 0b01111111) 0)).getD i 0 |||
            (aString.getD i 0 &&& 0b10000000))
          { s with iBuffer := s.iBuffer.set i (TM1650_CDigits.getD (aString.getD i 0 &&& 0b01111111) 0) })
        (by omega) (fun p hp1 hp2 => hnz p (by omega) (by omega))
        (fun hlt => by
          have := hz (by omega)
          rwa [show i + 1 + c = i + (c + 1) by omega])
        (by simp only [send, List.length_set]; omega)
      refine ⟨?_, ?_, ?_, ?_⟩
      · rw [h1]
        simp only [send, hself, List.append_assoc, List.singleton_append]
        rw [← range_map_shift (digitWrite aString) i c]
        rfl
      · intro p hp1 hp2
        by_cases hpi : p = i
        · subst hpi
          rw [h3 p (Or.inl (by omega))]
          exact hself
        · exact h2 p (by omega) (by omega)
      · intro p hp
        rw [h3 p (by omega)]
        exact getD_set_other _ _ _ _ (by omega)
      · intro hlt
        rw [show i + (c + 1) = i + 1 + c by omega]
        exact h4 (by omega)


theorem displayStringLoop_congr (a b : List Nat) :
    ∀ (remaining i : Nat) (s : TM1650),
      (∀ p, i ≤ p → p < i + remaining → a.getD p 0 = b.getD p 0) →
      displayStringLoop a remaining i s = displayStringLoop b remaining i s := by
  intro remaining
  induction remaining with
  | zero => intro i s _; rfl
  | succ r ih =>
    intro i s h
    have hi : a.getD i 0 = b.getD i 0 := h i (Nat.le_refl i) (by omega)
    simp only [displayStringLoop, hi]
    split
    · exact ih (i + 1) _ (fun p hp1 hp2 => h p (by omega) (by omega))
    · rfl

theorem displayString_take (aString : List Nat) (s : TM1650) :
    displayString (aString.take s.iNumDigits) s = displayString aString s := by
  unfold displayString
  split
  · rfl
  · apply displayStringLoop_congr
    intro p _ hp
    simp only [List.getD_eq_getElem?_getD, List.getElem?_take]
    rw [if_pos (by omega)]

theorem displayString_spec (aString : List Nat) (s : TM1650) (m : Nat)
    (hact : s.iActive = true) (hlen : s.iNumDigits ≤ s.iBuffer.length)
    (hm : m ≤ s.iNumDigits)
    (hnz : ∀ i, i < m → aString.getD i 0 &&& 0b01111111 ≠ 0)
    (hz : m < s.iNumDigits → aString.getD m 0 &&& 0b01111111 = 0) :
    (displayString aString s).wire =
        s.wire ++ (List.range m).map (fun i => digitWrite aString i) ∧
      (∀ i, i < m → (displayString aString s).iBuffer.getD i 0 = digitPattern aString i) ∧
      (∀ p, m < p → (displayString aString s).iBuffer.getD p 0 = s.iBuffer.getD p 0) ∧
      (m < s.iNumDigits →
        (displayString aString s).iBuffer.getD m 0 = TM1650_CDigits.getD 0 0) := by
  have h := displayStringLoop_spec aString s.iNumDigits m 0 s hm
    (fun p _ hp => hnz p (by omega)) (fun hlt => by simpa using hz hlt) (by omega)
  simp only [displayString, hact, Bool.not_true, Bool.false_eq_true, if_false]
  obtain ⟨h1, h2, h3, h4⟩ := h
  refine ⟨?_, ?_, ?_, ?_⟩
  · simpa using h1
  · intro i hi
    exact h2 i (Nat.zero_le i) (by omega)
  · intro p hp
    exact h3 p (Or.inr (by omega))
  · intro hlt
    simpa using h4 hlt

theorem lastWrite_append_single (w : List WireEvent) (e : WireEvent) (addr : Nat) :
    lastWrite (w ++ [e]) addr =
      match e with
      | WireEvent.write a v => if a = addr then some v else lastWrite w addr
      | _ => lastWrite w addr := by
  simp only [lastWrite, List.foldl_append, List.foldl_cons, List.foldl_nil]

theorem lastWrite_digitWrites (aString : List Nat) (w : List WireEvent) :
    ∀ (m i : Nat), i < m →
      lastWrite (w ++ (List.range m).map (fun j => digitWrite aString j))
          (TM1650_DISPLAY_BASE + i) =
        some (digitPattern aString i ||| (aString.getD i 0 &&& 0b10000000)) := by
  intro m
  induction m with
  | zero => intro i hi; omega
  | succ m ih =>
    intro i hi
    rw [List.range_succ, List.map_append, ← List.append_assoc, List.map_singleton,
      lastWrite_append_single]
    simp only [digitWrite]
    by_cases him : i = m
    · subst him
      simp
    · have hne : TM1650_DISPLAY_BASE + m ≠ TM1650_DISPLAY_BASE + i := by omega
      simp only [hne, if_false]
      exact ih i (by omega)

/-- C5: with `m` the least index below the digit count whose 7-bit code is zero
(or the digit count if there is none), `displayString` on an active driver
emits exactly the `m` writes for positions `0 .. m-1`, in that order, the
`i`-th to `0x34 + i` with the table pattern OR the dot flag, stores the
pattern without the dot flag in the mirror, and does not look at characters
past the digit count. -/
theorem displayString_writes_up_to_terminator (aString : List Nat) (s : TM1650) (m : Nat)
    (hact : s.iActive = true) (hwf : WF s) (hm : m ≤ s.iNumDigits)
    (hnz : ∀ i, i < m → aString.getD i 0 &&& 0x7F ≠ 0)
    (hz : m < s.iNumDigits → aString.getD m 0 &&& 0x7F = 0) :
    (displayString aString s).wire =
        s.wire ++ (List.range m).map (fun i =>
          WireEvent.write (0x34 + i)
            (TM1650_CDigits.getD (aString.getD i 0 &&& 0x7F) 0 ||| (aString.getD i 0 &&& 0x80))) ∧
      (∀ i, i < m →
        (displayString aString s).iBuffer.getD i 0 =
          TM1650_CDigits.getD (aString.getD i 0 &&& 0x7F) 0) ∧
      (∀ other : List Nat, other.take s.iNumDigits = aString.take s.iNumDigits →
        displayString other s = displayString aString s) := by
  have hlen : s.iNumDigits ≤ s.iBuffer.length := by
    obtain ⟨h1, h2, _, _⟩ := hwf
    simp only [TM1650_NUM_DIGITS] at h1 h2
    omega
  obtain ⟨h1, h2, _, _⟩ := displayString_spec aString s m hact hlen hm hnz hz
  refine ⟨h1, h2, ?_⟩
  intro other ho
  rw [← displayString_take other s, ho, displayString_take]

/-- C5 at "AB" on four digits: two writes, positions 0 and 1. -/
theorem displayString_writes_up_to_terminator_witness :
    ready4.iActive = true ∧ WF ready4 ∧
      (displayString [0x41, 0x42] ready4).wire =
        ready4.wire ++ (List.range 2).map (fun i =>
          WireEvent.write (0x34 + i)
            (TM1650_CDigits.getD (([0x41, 0x42] : List Nat).getD i 0 &&& 0x7F) 0 |||
              (([0x41, 0x42] : List Nat).getD i 0 &&& 0x80))) :=
  ⟨by decide, by decide,
    (displayString_writes_up_to_terminator [0x41, 0x42] ready4 2 (by decide) (by decide)
      (by decide) (by decide) (by decide)).1⟩

/-- C4 fails on the code: `displayString("AB")` on a four-digit display showing
"0000" emits the two writes for positions 0 and 1 only, yet the mirror of
position 2 goes from 0x3F to 0; position 3 keeps 0x3F. -/
theorem displayString_overwrites_terminator_position :
    (displayString [0x41, 0x42] shown4).wire =
        [WireEvent.write 0x34 0x77, WireEvent.write 0x35 0x7C] ∧
      shown4.iBuffer.getD 2 0 = 0x3F ∧
      (displayString [0x41, 0x42] shown4).iBuffer.getD 2 0 = 0 ∧
      (displayString [0x41, 0x42] shown4).iBuffer.getD 3 0 = 0x3F := by
  decide


/-! ## The scrolling window -/

theorem shiftTimes_succ_last :
    ∀ (k : Nat) (s : TM1650),
      shiftTimes (k + 1) s =
        (shiftTimes k s).bind (fun t => (displayRunningShift t).map Prod.fst) := by
  intro k
  induction k with
  | zero =>
    intro s
    simp only [shiftTimes, Option.some_bind]
    cases displayRunningShift s with
    | none => rfl
    | some p => rfl
  | succ k ih =>
    intro s
    rw [shiftTimes]
    cases h : displayRunningShift s with
    | none => simp [shiftTimes, h]
    | some p =>
      obtain ⟨s1, v⟩ := p
      simp only []
      rw [ih s1]
      conv_rhs => rw [shiftTimes, h]

theorem scrollBuffer_getD (aString old : List Nat) (hlen : aString.length ≤ 128)
    (hnz : ∀ c ∈ aString, c &&& 0x7F ≠ 0) (p : Nat) (hp : p ≤ 128) :
    ((strncpy aString (TM1650_MAX_STRING + 1) ++ old.drop (TM1650_MAX_STRING + 1)).set
      TM1650_MAX_STRING 0).getD p 0 = aString.getD p 0 := by
  have hall : aString.takeWhile (fun c => c ≠ 0) = aString := by
    rw [List.takeWhile_eq_self_iff]
    intro c hc
    have := hnz c hc
    simp only [ne_eq, decide_not, Bool.not_eq_true', decide_eq_false_iff_not]
    intro h0
    subst h0
    simp at this
  have hl := strncpy_length aString (TM1650_MAX_STRING + 1)
  simp only [TM1650_MAX_STRING] at hl ⊢
  by_cases h : p = 128
  · subst h
    rw [getD_set_self _ _ _ (by simp only [List.length_append, hl]; omega)]
    rw [List.getD_eq_getElem?_getD, List.getElem?_eq_none hlen]
    rfl
  · rw [getD_set_other _ _ _ _ (by omega)]
    rw [List.getD_append _ _ _ _ (by omega)]
    rw [strncpy_getD _ _ _ (by omega), hall]

theorem displayString_window (T : List Nat) (t : TM1650) (m i : Nat)
    (hact : t.iActive = true) (hlen : t.iNumDigits ≤ t.iBuffer.length)
    (hm : m ≤ t.iNumDigits)
    (hnz : ∀ j, j < m → T.getD j 0 &&& 0b01111111 ≠ 0)
    (hz : m < t.iNumDigits → T.getD m 0 &&& 0b01111111 = 0) (hi : i < m) :
    getPosition i (displayString T t) = digitPattern T i ∧
      lastWrite (displayString T t).wire (TM1650_DISPLAY_BASE + i) =
        some (digitPattern T i ||| (T.getD i 0 &&& 0b10000000)) := by
  obtain ⟨h1, h2, _, _⟩ := displayString_spec T t m hact hlen hm hnz hz
  refine ⟨h2 i hi, ?_⟩
  rw [h1]
  exact lastWrite_digitWrites T t.wire m i hi

/-- C3: on an active driver, for a text of at most 128 characters none of which
has a zero 7-bit code, after `displayRunning` and `k` shifts
(`k <= length - digits`, the subtraction stopping at 0) digit `i` of the window
shows the pattern of character `k + i`, and the last byte written to register
`0x34 + i` is that pattern OR the character's dot flag. -/
theorem displayRunning_shows_window (aString : List Nat) (s : TM1650) (k i : Nat)
    (hact : s.iActive = true) (hwf : WF s) (hlen : aString.length ≤ 128)
    (hnz : ∀ c ∈ aString, c &&& 0x7F ≠ 0)
    (hk : k ≤ aString.length - s.iNumDigits)
    (hi : i < min s.iNumDigits (aString.length - k)) :
    ∃ sk, shiftTimes k (displayRunning aString s).1 = some sk ∧
      getPosition i sk = TM1650_CDigits.getD (aString.getD (k + i) 0 &&& 0x7F) 0 ∧
      lastWrite sk.wire (0x34 + i) =
        some (TM1650_CDigits.getD (aString.getD (k + i) 0 &&& 0x7F) 0 |||
          (aString.getD (k + i) 0 &&& 0x80)) := by
  obtain ⟨hn16, hbuf, _, _⟩ := hwf
  simp only [TM1650_NUM_DIGITS] at hn16 hbuf
  -- the scroll buffer and the state `displayRunning` leaves
  generalize hR : (strncpy aString (TM1650_MAX_STRING + 1) ++
    s.iString.drop (TM1650_MAX_STRING + 1)).set TM1650_MAX_STRING 0 = R
  have hRget : ∀ p, p ≤ 128 → R.getD p 0 = aString.getD p 0 := by
    intro p hp
    rw [← hR]
    exact scrollBuffer_getD aString s.iString hlen hnz p hp
  have hRlen : strlen R = aString.length := by
    apply strlen_eq_of
    · intro j hj
      rw [hRget j (by omega)]
      have hmem : aString[j] ∈ aString := List.getElem_mem hj
      have h7 := hnz _ hmem
      rw [List.getD_eq_getElem?_getD, List.getElem?_eq_getElem hj]
      intro h0
      simp only [Option.getD_some] at h0
      rw [h0] at h7
      simp at h7
    · rw [hRget _ hlen, List.getD_eq_getElem?_getD, List.getElem?_eq_none (Nat.le_refl _)]
      rfl
  have hdrop : ∀ (q j : Nat), q + j ≤ 128 → (R.drop q).getD j 0 = aString.getD (q + j) 0 := by
    intro q j hq
    rw [List.getD_eq_getElem?_getD, List.getElem?_drop, ← List.getD_eq_getElem?_getD]
    exact hRget _ hq
  have hcode : ∀ q, q < aString.length → aString.getD q 0 &&& 0x7F ≠ 0 := by
    intro q hq
    have hmem : aString[q] ∈ aString := List.getElem_mem hq
    rw [List.getD_eq_getElem?_getD, List.getElem?_eq_getElem hq]
    exact hnz _ hmem
  -- what the last `displayString` shows, whatever the state it starts from
  have hshow : ∀ t : TM1650, t.iActive = true → t.iNumDigits = s.iNumDigits →
      t.iBuffer.length = s.iBuffer.length →
      getPosition i (displayString (R.drop k) t) =
          TM1650_CDigits.getD (aString.getD (k + i) 0 &&& 0x7F) 0 ∧
        lastWrite (displayString (R.drop k) t).wire (0x34 + i) =
          some (TM1650_CDigits.getD (aString.getD (k + i) 0 &&& 0x7F) 0 |||
            (aString.getD (k + i) 0 &&& 0x80)) := by
    intro t ht hn hb
    have hw := displayString_window (R.drop k) t (min s.iNumDigits (aString.length - k)) i ht
      (by omega) (by omega)
      (fun j hj => by
        rw [hdrop k j (by omega)]
        exact hcode _ (by omega))
      (fun hlt => by
        rw [hdrop k _ (by omega)]
        have hout : aString.getD (k + min s.iNumDigits (aString.length - k)) 0 = 0 := by
          rw [List.getD_eq_getElem?_getD, List.getElem?_eq_none (by omega)]
          rfl
        rw [hout]
        rfl)
      hi
    simp only [digitPattern, TM1650_DISPLAY_BASE] at hw
    rw [hdrop k i (by omega)] at hw
    exact hw
  have hstate := displayRunning_state aString s
  rw [hR] at hstate
  have hf0 := displayString_frame (cursorText 0 { s with iString := R, iPosition := some 0 })
    { s with iString := R, iPosition := some 0 }
  cases k with
  | zero =>
    refine ⟨(displayRunning aString s).1, rfl, ?_⟩
    rw [hstate]
    exact hshow { s with iString := R, iPosition := some 0 } hact rfl rfl
  | succ k =>
    obtain ⟨sk, e1, e2, e3, e4, e5, e6⟩ := shiftTimes_cursor k (displayRunning aString s).1 0
      (by rw [hstate]; exact hf0.2.1)
    have hs1 : (displayRunning aString s).1.iString = R := by rw [hstate]; exact hf0.1
    have hn1 : (displayRunning aString s).1.iNumDigits = s.iNumDigits := by
      rw [hstate]; exact hf0.2.2.1
    have ha1 : (displayRunning aString s).1.iActive = true := by
      rw [hstate]; exact hf0.2.2.2.1.trans hact
    have hb1 : (displayRunning aString s).1.iBuffer.length = s.iBuffer.length := by
      rw [hstate]; exact hf0.2.2.2.2.2.2
    have hl0 : strlen (cursorText 0 (displayRunning aString s).1) = aString.length := by
      simp only [cursorText, List.drop_zero, hs1, hRlen]
    rw [hl0, hn1] at e2
    rw [hs1] at e3
    rw [hn1] at e4
    have hoff : 0 + min k (aString.length - s.iNumDigits) = k := by omega
    rw [hoff] at e2
    have hcur : strlen (cursorText k sk) = aString.length - k := by
      simp only [cursorText, e3]
      have := strlen_drop_add R 0 k (by simp only [List.drop_zero, hRlen]; omega)
      simpa [hRlen] using this
    have hshift := displayRunningShift_eq sk k e2
    rw [if_neg (by rw [hcur, e4]; omega)] at hshift
    refine ⟨displayString (cursorText (k + 1) sk) { sk with iPosition := some (k + 1) }, ?_, ?_⟩
    · rw [shiftTimes_succ_last, e1, Option.some_bind, hshift]
      rfl
    · have hct : cursorText (k + 1) sk = R.drop (k + 1) := by
        simp only [cursorText, e3]
      rw [hct]
      exact hshow { sk with iPosition := some (k + 1) } (e5.trans ha1) e4 (e6.trans hb1)


/-! ## Control-register loops and brightness -/

set_option maxRecDepth 100000 in
theorem brightBits_small : ∀ y, y < 256 → ∀ b, b < 8 →
    ((y &&& 0x8F) ||| (b <<< 4)) &&& 1 = y &&& 1 ∧
      (((y &&& 0x8F) ||| (b <<< 4)) >>> 4) &&& 7 = b := by
  decide

theorem and_mask_mod (x m : Nat) (hm : m < 256) : x &&& m = (x % 256) &&& m := by
  have h1 : x % 256 = x &&& 255 := (Nat.and_pow_two_sub_one_eq_mod x 8).symm
  have h2 : (255 : Nat) &&& m = m := by
    have hmod : m % 256 = m := Nat.mod_eq_of_lt hm
    rw [Nat.and_comm]
    have h3 := Nat.and_pow_two_sub_one_eq_mod m 8
    simpa [hmod] using h3
  rw [h1, Nat.and_assoc, h2]

theorem brightBits (x b : Nat) (hb : b ≤ 7) :
    ((x &&& 0x8F) ||| (b <<< 4)) &&& 1 = x &&& 1 ∧
      (((x &&& 0x8F) ||| (b <<< 4)) >>> 4) &&& 7 = b := by
  have h := brightBits_small (x % 256) (Nat.mod_lt _ (by decide)) b (by omega)
  rw [← and_mask_mod x 0x8F (by decide), ← and_mask_mod x 1 (by decide)] at h
  exact h

theorem ctrlLoop_spec (f : Nat → Nat) (body : Nat → TM1650 → TM1650) (b : Nat)
    (hbody : ∀ i t, i < t.iCtrl.length → t.iBrightness = b → body i t = ctrlStep f i t) :
    ∀ (n : Nat) (s : TM1650), n ≤ s.iCtrl.length → s.iBrightness = b →
      (forLoop n body s).wire =
          s.wire ++ (List.range n).map (fun i =>
            WireEvent.write (TM1650_DCTRL_BASE + i) (f (s.iCtrl.getD i 0))) ∧
        (∀ i, (forLoop n body s).iCtrl.getD i 0 =
          if i < n then f (s.iCtrl.getD i 0) else s.iCtrl.getD i 0) ∧
        ctrlFrame s (forLoop n body s) := by
  intro n
  induction n with
  | zero =>
    intro s _ _
    rw [forLoop_zero]
    exact ⟨by simp, fun i => by simp, rfl, rfl, rfl, rfl, rfl, rfl, rfl⟩
  | succ n ih =>
    intro s hn hb
    obtain ⟨h1, h2, g1, g2, g3, g4, g5, g6, g7⟩ := ih s (by omega) hb
    rw [forLoop_succ, hbody n _ (by omega) (g5.trans hb)]
    have hold : (forLoop n body s).iCtrl.getD n 0 = s.iCtrl.getD n 0 := by
      rw [h2 n, if_neg (Nat.lt_irrefl n)]
    refine ⟨?_, ?_, g1, g2, g3, g4, g5, g6, ?_⟩
    · simp only [ctrlStep, send, h1, hold, List.range_succ, List.map_append, List.map_singleton,
        List.append_assoc]
    · intro i
      simp only [ctrlStep, send, hold]
      by_cases hin : i = n
      · subst hin
        rw [getD_set_self _ _ _ (by omega), if_pos (Nat.lt_succ_self i)]
      · rw [getD_set_other _ _ _ _ (fun h => hin h.symm), h2 i]
        by_cases hlt : i < n
        · rw [if_pos hlt, if_pos (by omega)]
        · rw [if_neg hlt, if_neg (by omega)]
    · simp only [ctrlStep, send, List.length_set]
      exact g7

theorem setBrightnessBody_eq (b : Nat) (i : Nat) (t : TM1650) (hi : i < t.iCtrl.length)
    (hb : t.iBrightness = b) :
    setBrightnessBody i t =
      ctrlStep (fun x => (x &&& TM1650_MSK_BRIGHT) ||| (b <<< TM1650_BRIGHT_SHIFT)) i t := by
  simp only [setBrightnessBody, ctrlStep, hb]
  rw [getD_set_self _ _ _ hi]

theorem setBrightness_spec (aValue : Nat) (s : TM1650) (hact : s.iActive = true)
    (hlen : s.iNumDigits ≤ s.iCtrl.length) :
    (setBrightness aValue s).wire =
        s.wire ++ (List.range s.iNumDigits).map (fun i =>
          WireEvent.write (TM1650_DCTRL_BASE + i)
            ((s.iCtrl.getD i 0 &&& TM1650_MSK_BRIGHT) |||
              (min aValue 7 <<< TM1650_BRIGHT_SHIFT))) ∧
      (∀ i, (setBrightness aValue s).iCtrl.getD i 0 =
        if i < s.iNumDigits then
          (s.iCtrl.getD i 0 &&& TM1650_MSK_BRIGHT) ||| (min aValue 7 <<< TM1650_BRIGHT_SHIFT)
        else s.iCtrl.getD i 0) ∧
      (setBrightness aValue s).iBrightness = min aValue 7 ∧
      (setBrightness aValue s).iString = s.iString ∧
      (setBrightness aValue s).iPosition = s.iPosition ∧
      (setBrightness aValue s).iNumDigits = s.iNumDigits ∧
      (setBrightness aValue s).iActive = s.iActive ∧
      (setBrightness aValue s).iBuffer = s.iBuffer ∧
      (setBrightness aValue s).iCtrl.length = s.iCtrl.length := by
  have hclamp : (if aValue > TM1650_MAX_BRIGHT then TM1650_MAX_BRIGHT else aValue) =
      min aValue 7 := by
    simp only [TM1650_MAX_BRIGHT]
    split <;> omega
  have hun : setBrightness aValue s =
      forLoop s.iNumDigits setBrightnessBody { s with iBrightness := min aValue 7 } := by
    unfold setBrightness
    rw [if_neg (by simp [hact])]
    simp only [hclamp]
  rw [hun]
  obtain ⟨h1, h2, g1, g2, g3, g4, g5, g6, g7⟩ :=
    ctrlLoop_spec (fun x => (x &&& TM1650_MSK_BRIGHT) ||| (min aValue 7 <<< TM1650_BRIGHT_SHIFT))
      setBrightnessBody (min aValue 7) (setBrightnessBody_eq (min aValue 7)) s.iNumDigits
      { s with iBrightness := min aValue 7 } hlen rfl
  exact ⟨h1, h2, g5, g1, g2, g3, g4, g6, g7⟩

/-- C6: on an active driver `setBrightness v` (any `v`, the 8-bit values
included) sets the brightness to `min v 7`, sets every digit's control byte to
`(old AND 0x8F) OR (min v 7 << 4)` and writes it to `0x24 + i`, digit by
digit; bit 0 of each control byte is kept, bits 4-6 hold the new brightness,
and a value above 7 acts exactly as 7. -/
theorem setBrightness_clamps_and_recomposes (v : Nat) (s : TM1650) (hact : s.iActive = true)
    (hwf : WF s) :
    getBrightness (setBrightness v s) = min v 7 ∧
      (∀ i, i < s.iNumDigits →
        (setBrightness v s).iCtrl.getD i 0 = (s.iCtrl.getD i 0 &&& 0x8F) ||| (min v 7 <<< 4)) ∧
      (setBrightness v s).wire =
        s.wire ++ (List.range s.iNumDigits).map (fun i =>
          WireEvent.write (0x24 + i) ((s.iCtrl.getD i 0 &&& 0x8F) ||| (min v 7 <<< 4))) ∧
      (∀ i, i < s.iNumDigits →
        (setBrightness v s).iCtrl.getD i 0 &&& 1 = s.iCtrl.getD i 0 &&& 1 ∧
          ((setBrightness v s).iCtrl.getD i 0 >>> 4) &&& 7 = min v 7) ∧
      (7 < v → setBrightness v s = setBrightness 7 s) := by
  have hlen : s.iNumDigits ≤ s.iCtrl.length := by
    obtain ⟨h1, _, h3, _⟩ := hwf
    rw [h3]
    exact h1
  obtain ⟨h1, h2, h3, _⟩ := setBrightness_spec v s hact hlen
  have hget : ∀ i, i < s.iNumDigits →
      (setBrightness v s).iCtrl.getD i 0 = (s.iCtrl.getD i 0 &&& 0x8F) ||| (min v 7 <<< 4) := by
    intro i hi
    rw [h2 i, if_pos hi]
    rfl
  refine ⟨h3, hget, h1, ?_, ?_⟩
  · intro i hi
    rw [hget i hi]
    exact brightBits (s.iCtrl.getD i 0) (min v 7) (Nat.min_le_right v 7)
  · intro hv
    have hc : (if v > TM1650_MAX_BRIGHT then TM1650_MAX_BRIGHT else v) =
        (if 7 > TM1650_MAX_BRIGHT then TM1650_MAX_BRIGHT else 7) := by
      simp only [TM1650_MAX_BRIGHT]
      rw [if_pos hv, if_neg (by decide)]
    simp only [setBrightness, hc]

/-- C6 at `setBrightness(200)` on the four-digit display. -/
theorem setBrightness_clamps_and_recomposes_witness :
    ready4.iActive = true ∧ WF ready4 ∧ getBrightness (setBrightness 200 ready4) = min 200 7 ∧
      (setBrightness 200 ready4).wire =
        ready4.wire ++ (List.range ready4.iNumDigits).map (fun i =>
          WireEvent.write (0x24 + i) ((ready4.iCtrl.getD i 0 &&& 0x8F) ||| (min 200 7 <<< 4))) :=
  ⟨by decide, by decide,
    (setBrightness_clamps_and_recomposes 200 ready4 (by decide) (by decide)).1,
    (setBrightness_clamps_and_recomposes 200 ready4 (by decide) (by decide)).2.2.1⟩

/-- C3 at "HELLOWORLD" on four digits after two shifts: digit 1 shows the 'L'
at offset 3. -/
theorem displayRunning_shows_window_witness :
    ready4.iActive = true ∧ WF ready4 ∧
      ∃ sk, shiftTimes 2 (displayRunning helloWorld ready4).1 = some sk ∧
        getPosition 1 sk = TM1650_CDigits.getD (helloWorld.getD (2 + 1) 0 &&& 0x7F) 0 ∧
        lastWrite sk.wire (0x34 + 1) =
          some (TM1650_CDigits.getD (helloWorld.getD (2 + 1) 0 &&& 0x7F) 0 |||
            (helloWorld.getD (2 + 1) 0 &&& 0x80)) :=
  ⟨by decide, by decide,
    displayRunning_shows_window helloWorld ready4 2 1 (by decide) (by decide) (by decide)
      (by decide) (by decide) (by decide)⟩


/-! ## Gradual brightness -/

theorem gradualLoop_returns (aValue : Nat) (up : Bool) (ha : aValue < 256) :
    ∀ (fuel i : Nat) (s : TM1650),
      (if up then (aValue + 255 * i + 255) % 256 else (i + 255 * aValue + 255) % 256) < fuel →
      ∃ r, gradualLoop aValue up fuel i s = some r := by
  intro fuel
  induction fuel with
  | zero => intro i s h; omega
  | succ fuel ih =>
    intro i s h
    cases up with
    | true =>
      simp only [if_true] at h ih
      simp only [gradualLoop, if_true]
      by_cases hne : (i + 1) % 256 = aValue
      · rw [if_neg (by simpa using hne)]
        exact ⟨_, rfl⟩
      · rw [if_pos hne]
        exact ih _ _ (by omega)
    | false =>
      simp only [Bool.false_eq_true, if_false] at h ih
      simp only [gradualLoop, Bool.false_eq_true, if_false]
      by_cases hne : (i + 255) % 256 = aValue
      · rw [if_neg (by simpa using hne)]
        exact ⟨_, rfl⟩
      · rw [if_pos hne]
        exact ih _ _ (by omega)

/-- The 256 iterations granted to the loop are enough: the call returns. -/
theorem setBrightnessGradually_returns (aValue : Nat) (s : TM1650) :
    ∃ r, setBrightnessGradually aValue s = some r := by
  unfold setBrightnessGradually
  split
  · exact ⟨s, rfl⟩
  · apply gradualLoop_returns
    · simp only [TM1650_MAX_BRIGHT]
      split <;> omega
    · split <;> split <;> exact Nat.mod_lt _ (Nat.succ_pos 255)

theorem setBrightness_level (aValue : Nat) (s : TM1650) (hact : s.iActive = true) :
    (setBrightness aValue s).iBrightness = min aValue 7 ∧
      (setBrightness aValue s).iActive = true := by
  have hclamp : (if aValue > TM1650_MAX_BRIGHT then TM1650_MAX_BRIGHT else aValue) =
      min aValue 7 := by
    simp only [TM1650_MAX_BRIGHT]
    split <;> omega
  unfold setBrightness
  rw [if_neg (by simp [hact])]
  simp only [hclamp]
  apply forLoop_invariant (fun t => t.iBrightness = min aValue 7 ∧ t.iActive = true)
  · intro i t ⟨h1, h2⟩
    exact ⟨h1, h2⟩
  · exact ⟨rfl, hact⟩

theorem gradualLoop_up (v : Nat) (hv : v ≤ 7) :
    ∀ (d fuel i : Nat) (s : TM1650), s.iActive = true → i + d + 1 = v → d < fuel →
      ∃ r, gradualLoop v true fuel i s = some r ∧ r.iBrightness = v - 1 ∧ r.iActive = true := by
  intro d
  induction d with
  | zero =>
    intro fuel i s hact hi hf
    obtain ⟨f, rfl⟩ : ∃ f, fuel = f + 1 := ⟨fuel - 1, by omega⟩
    obtain ⟨h1, h2⟩ := setBrightness_level i s hact
    have hexit : (i + 1) % 256 = v := by omega
    simp only [gradualLoop, if_true, hexit, ne_eq, not_true_eq_false, if_false]
    exact ⟨_, rfl, by simp only [h1]; omega, h2⟩
  | succ d ih =>
    intro fuel i s hact hi hf
    obtain ⟨f, rfl⟩ : ∃ f, fuel = f + 1 := ⟨fuel - 1, by omega⟩
    obtain ⟨_, h2⟩ := setBrightness_level i s hact
    have hnext : (i + 1) % 256 = i + 1 := by omega
    have hne : i + 1 ≠ v := by omega
    simp only [gradualLoop, if_true, hnext, ne_eq, hne, not_false_eq_true]
    exact ih f (i + 1) _ h2 (by omega) (by omega)

theorem gradualLoop_down (v : Nat) :
    ∀ (d fuel i : Nat) (s : TM1650), s.iActive = true → i = v + d + 1 → i ≤ 7 → d < fuel →
      ∃ r, gradualLoop v false fuel i s = some r ∧ r.iBrightness = v + 1 ∧ r.iActive = true := by
  intro d
  induction d with
  | zero =>
    intro fuel i s hact hi hi7 hf
    obtain ⟨f, rfl⟩ : ∃ f, fuel = f + 1 := ⟨fuel - 1, by omega⟩
    obtain ⟨h1, h2⟩ := setBrightness_level i s hact
    have hexit : (i + 255) % 256 = v := by omega
    simp only [gradualLoop, Bool.false_eq_true, if_false, hexit, ne_eq, not_true_eq_false]
    exact ⟨_, rfl, by simp only [h1]; omega, h2⟩
  | succ d ih =>
    intro fuel i s hact hi hi7 hf
    obtain ⟨f, rfl⟩ : ∃ f, fuel = f + 1 := ⟨fuel - 1, by omega⟩
    obtain ⟨_, h2⟩ := setBrightness_level i s hact
    have hnext : (i + 255) % 256 = i - 1 := by omega
    have hne : i - 1 ≠ v := by omega
    simp only [gradualLoop, Bool.false_eq_true, if_false, hnext, ne_eq, hne, not_false_eq_true,
      if_true]
    exact ih f (i - 1) _ h2 (by omega) (by omega) (by omega)

/-- Where the fade ends on an active driver, both values in range: one step
before the target, on the side it started from. -/
theorem setBrightnessGradually_final_level (v : Nat) (s : TM1650) (hact : s.iActive = true)
    (hb : s.iBrightness ≤ 7) (hv : v ≤ 7) (hne : v ≠ s.iBrightness) :
    ∃ r, setBrightnessGradually v s = some r ∧
      r.iBrightness = (if s.iBrightness < v then v - 1 else v + 1) ∧ r.iBrightness ≠ v := by
  have hclamp : (if v > TM1650_MAX_BRIGHT then TM1650_MAX_BRIGHT else v) = v := by
    simp only [TM1650_MAX_BRIGHT]
    rw [if_neg (by omega)]
  have hd : decide (v = s.iBrightness) = false := by simpa using hne
  simp only [setBrightnessGradually, hact, hd, hclamp, Bool.not_true, Bool.or_false,
    Bool.false_eq_true, if_false]
  by_cases hlt : s.iBrightness < v
  · have hup : (!decide (v < s.iBrightness)) = true := by simp; omega
    rw [hup, if_pos hlt]
    obtain ⟨r, e, h1, _⟩ := gradualLoop_up v hv (v - s.iBrightness - 1) 256 s.iBrightness s hact
      (by omega) (by omega)
    exact ⟨r, e, h1, by omega⟩
  · have hdown : (!decide (v < s.iBrightness)) = false := by simp; omega
    rw [hdown, if_neg hlt]
    obtain ⟨r, e, h1, _⟩ := gradualLoop_down v (s.iBrightness - v - 1) 256 s.iBrightness s hact
      (by omega) hb (by omega)
    exact ⟨r, e, h1, by omega⟩


set_option maxRecDepth 100000 in
/-- C7 fails on the code: from brightness 2 the fade towards 5 ends at 4, and
the fade towards 0 ends at 1; the last `setBrightness` call is one step short
of the target. -/
theorem setBrightnessGradually_stops_one_short :
    getBrightness (setBrightness 2 ready4) = 2 ∧
      (setBrightnessGradually 5 (setBrightness 2 ready4)).map getBrightness = some 4 ∧
      (setBrightnessGradually 5 (setBrightness 2 ready4)).map
        (fun r => (r.iCtrl.getD 0 0 >>> 4) &&& 7) = some 4 ∧
      (setBrightnessGradually 0 (setBrightness 2 ready4)).map getBrightness = some 1 := by
  decide

/-- C8 fails on the code at brightness 7: a target of 8 is compared with the
brightness before it is clamped, so the loop starts, its counter wraps past
255, and the brightness ends at 6 after control-register writes, where
`setBrightnessGradually(7)` returns at once with the state untouched. -/
theorem setBrightnessGradually_wraps_from_max :
    getBrightness (setBrightness 7 ready4) = 7 ∧
      setBrightnessGradually 7 (setBrightness 7 ready4) = some (setBrightness 7 ready4) ∧
      (setBrightnessGradually 8 (setBrightness 7 ready4)).map getBrightness = some 6 ∧
      (setBrightnessGradually 8 (setBrightness 7 ready4)).map
        (fun r => decide (r.wire = (setBrightness 7 ready4).wire)) = some false := by
  decide!


/-- For a brightness below 7 a target above 7 is the target 7. -/
theorem setBrightnessGradually_clamp_below_max (v : Nat) (s : TM1650) (hv : 7 < v)
    (hb : s.iBrightness < 7) :
    setBrightnessGradually v s = setBrightnessGradually 7 s := by
  have h1 : decide (v = s.iBrightness) = false := by simp; omega
  have h2 : decide (7 = s.iBrightness) = false := by simp; omega
  simp only [setBrightnessGradually, TM1650_MAX_BRIGHT, h1, h2]
  rw [if_pos hv, if_neg (Nat.lt_irrefl 7)]

/-! ## The inactive driver -/

theorem init_failed (s : TM1650) :
    init false s =
      { forLoop s.iNumDigits initBody { s with iPosition := none } with
        wire := (forLoop s.iNumDigits initBody { s with iPosition := none }).wire ++
          [WireEvent.probe TM1650_DISPLAY_BASE],
        iActive := false } := by
  simp [init, clear, displayOn]

theorem initLoop_keeps (n : Nat) (s : TM1650) :
    (forLoop n initBody s).wire = s.wire ∧ (forLoop n initBody s).iNumDigits = s.iNumDigits ∧
      (forLoop n initBody s).iBuffer.length = s.iBuffer.length ∧
      (forLoop n initBody s).iPosition = s.iPosition := by
  apply forLoop_invariant (fun t => t.wire = s.wire ∧ t.iNumDigits = s.iNumDigits ∧
    t.iBuffer.length = s.iBuffer.length ∧ t.iPosition = s.iPosition)
  · intro i t ⟨h1, h2, h3, h4⟩
    exact ⟨h1, h2, by simpa [initBody] using h3, h4⟩
  · exact ⟨rfl, rfl, rfl, rfl⟩

theorem init_failed_idle (s : TM1650) :
    idleInv (s.wire ++ [WireEvent.probe TM1650_DISPLAY_BASE]) s.iNumDigits s.iBuffer.length false
      (init false s) := by
  obtain ⟨h1, h2, h3, _⟩ := initLoop_keeps s.iNumDigits { s with iPosition := none }
  rw [init_failed]
  refine ⟨rfl, ?_, h2, h3, ?_⟩
  · simp only [h1]
  · intro h; cases h

theorem displayString_inactive (aString : List Nat) (t : TM1650) (h : t.iActive = false) :
    displayString aString t = t := by
  simp [displayString, h]

theorem idle_step (w : List WireEvent) (n len : Nat) (hn : n ≤ len) (op : Op) (c : Bool)
    (t : TM1650) (hinv : idleInv w n len c t) (hop : op.guarded n c = true) :
    ∃ t1, op.apply t = some t1 ∧ idleInv w n len (c || op.setsCursor) t1 := by
  obtain ⟨ha, hw, hnd, hl, hc⟩ := hinv
  have keep : idleInv w n len (c || false) t := ⟨ha, hw, hnd, hl, by simpa using hc⟩
  cases op with
  | init ack => simp [Op.guarded] at hop
  | clear => exact ⟨t, by simp [Op.apply, clear, ha], keep⟩
  | displayOn => exact ⟨t, by simp [Op.apply, displayOn, ha], keep⟩
  | displayOff => exact ⟨t, by simp [Op.apply, displayOff, ha], keep⟩
  | displayState aState =>
    exact ⟨t, by cases aState <;> simp [Op.apply, displayState, displayOn, displayOff, ha], keep⟩
  | displayString aString => exact ⟨t, by simp [Op.apply, displayString, ha], keep⟩
  | displayRunning aString =>
    refine ⟨_, rfl, ?_⟩
    rw [displayRunning_state, displayString_inactive]
    · exact ⟨ha, hw, hnd, hl, fun _ => ⟨0, rfl⟩⟩
    · exact ha
  | displayRunningShift =>
    have hcs : c = true := by simpa [Op.guarded] using hop
    obtain ⟨off, hoff⟩ := hc hcs
    simp only [Op.apply, displayRunningShift_eq t off hoff]
    split
    · exact ⟨t, rfl, keep⟩
    · refine ⟨_, rfl, ?_⟩
      simp only []
      rw [displayString_inactive]
      · exact ⟨ha, hw, hnd, hl, fun _ => ⟨off + 1, rfl⟩⟩
      · exact ha
  | setBrightness aValue => exact ⟨t, by simp [Op.apply, setBrightness, ha], keep⟩
  | setBrightnessGradually aValue =>
    exact ⟨t, by simp [Op.apply, setBrightnessGradually, ha], keep⟩
  | controlPosition aPos aValue => exact ⟨t, by simp [Op.apply, controlPosition, ha], keep⟩
  | setPosition aPos aValue => exact ⟨t, by simp [Op.apply, setPosition, ha], keep⟩
  | setDot aPos aState =>
    have hp : aPos < n := by simpa [Op.guarded] using hop
    have hp2 : aPos < t.iBuffer.length := by omega
    simp only [Op.apply, setDot, hp2, if_true]
    refine ⟨_, rfl, ?_⟩
    simp only [setPosition, ha, Bool.not_false, if_true]
    exact ⟨rfl, hw, hnd, by simpa using hl, by simpa [Op.setsCursor] using hc⟩

theorem idle_run (w : List WireEvent) (n len : Nat) (hn : n ≤ len) :
    ∀ (ops : List Op) (c : Bool) (t : TM1650), idleInv w n len c t →
      guardedSeq n c ops = true →
      ∃ r, run ops t = some r ∧ r.iActive = false ∧ r.wire = w := by
  intro ops
  induction ops with
  | nil =>
    intro c t hinv _
    exact ⟨t, rfl, hinv.1, hinv.2.1⟩
  | cons op rest ih =>
    intro c t hinv hg
    simp only [guardedSeq, Bool.and_eq_true] at hg
    obtain ⟨t1, e1, hinv1⟩ := idle_step w n len hn op c t hinv hg.1
    obtain ⟨r, e2, h1, h2⟩ := ih _ t1 hinv1 hg.2
    exact ⟨r, by simp only [run, e1, e2], h1, h2⟩

/-- C9: after an `init()` whose probe is not acknowledged the driver is
inactive and has put no byte on the bus, and every sequence of the mutating
operations (no `init`, `setDot` below the digit count, `displayRunningShift`
after a `displayRunning`) runs to its end with the transcript unchanged and
the driver still inactive. -/
theorem failed_init_silences_driver (s : TM1650) (ops : List Op) (hwf : WF s)
    (hops : guardedSeq s.iNumDigits false ops = true) :
    (init false s).iActive = false ∧
      (init false s).wire = s.wire ++ [WireEvent.probe 0x34] ∧
      bytesWritten (init false s).wire = bytesWritten s.wire ∧
      ∃ r, run ops (init false s) = some r ∧ r.iActive = false ∧
        r.wire = (init false s).wire ∧ bytesWritten r.wire = bytesWritten s.wire := by
  have hinv := init_failed_idle s
  have hlen : s.iNumDigits ≤ s.iBuffer.length := by
    obtain ⟨h1, h2, _, _⟩ := hwf
    simp only [TM1650_NUM_DIGITS] at h1 h2
    omega
  have hbytes : bytesWritten (s.wire ++ [WireEvent.probe TM1650_DISPLAY_BASE]) =
      bytesWritten s.wire := by
    simp [bytesWritten]
  obtain ⟨r, e, h1, h2⟩ := idle_run _ _ _ hlen ops false (init false s) hinv hops
  have hw : (init false s).wire = s.wire ++ [WireEvent.probe TM1650_DISPLAY_BASE] := hinv.2.1
  refine ⟨hinv.1, hw, ?_, r, e, h1, ?_, ?_⟩
  · rw [hw, hbytes]
  · rw [h2, hw]
  · rw [h2, hbytes]

/-- C9 on the four-digit display, for a sequence that scrolls, sets a dot,
changes the brightness and clears. -/
theorem failed_init_silences_driver_witness :
    WF ready4 ∧
      guardedSeq ready4.iNumDigits false
        [Op.displayRunning helloWorld, Op.displayRunningShift, Op.setDot 1 true,
          Op.setBrightnessGradually 3, Op.clear] = true ∧
      ∃ r, run [Op.displayRunning helloWorld, Op.displayRunningShift, Op.setDot 1 true,
          Op.setBrightnessGradually 3, Op.clear] (init false ready4) = some r ∧
        r.iActive = false ∧ r.wire = (init false ready4).wire ∧
        bytesWritten r.wire = bytesWritten ready4.wire :=
  ⟨by decide, by decide,
    (failed_init_silences_driver ready4
      [Op.displayRunning helloWorld, Op.displayRunningShift, Op.setDot 1 true,
        Op.setBrightnessGradually 3, Op.clear] (by decide) (by decide)).2.2.2⟩

/-- While the driver is inactive every call but `init` and `setDot` leaves the
display mirror, the control mirror and the brightness as they were. -/
theorem inactive_calls_keep_mirrors (op : Op) (t t1 : TM1650) (ha : t.iActive = false)
    (hinit : ∀ ack, op ≠ Op.init ack) (hdot : ∀ aPos aState, op ≠ Op.setDot aPos aState)
    (h : op.apply t = some t1) :
    t1.iBuffer = t.iBuffer ∧ t1.iCtrl = t.iCtrl ∧ t1.iBrightness = t.iBrightness := by
  cases op with
  | init ack => exact absurd rfl (hinit ack)
  | setDot aPos aState => exact absurd rfl (hdot aPos aState)
  | displayRunning aString =>
    simp only [Op.apply, Option.some.injEq] at h
    rw [displayRunning_state, displayString_inactive _ _ (by exact ha)] at h
    subst h
    exact ⟨rfl, rfl, rfl⟩
  | displayRunningShift =>
    cases hp : t.iPosition with
    | none => simp [Op.apply, displayRunningShift, hp] at h
    | some off =>
      simp only [Op.apply, displayRunningShift_eq t off hp] at h
      split at h
      · simp only [Option.map_some', Option.some.injEq] at h
        subst h
        exact ⟨rfl, rfl, rfl⟩
      · simp only [Option.map_some', Option.some.injEq] at h
        rw [displayString_inactive _ _ (by exact ha)] at h
        subst h
        exact ⟨rfl, rfl, rfl⟩
  | clear => simp [Op.apply, clear, ha] at h; subst h; exact ⟨rfl, rfl, rfl⟩
  | displayOn => simp [Op.apply, displayOn, ha] at h; subst h; exact ⟨rfl, rfl, rfl⟩
  | displayOff => simp [Op.apply, displayOff, ha] at h; subst h; exact ⟨rfl, rfl, rfl⟩
  | displayState aState =>
    cases aState <;> simp [Op.apply, displayState, displayOn, displayOff, ha] at h <;>
      subst h <;> exact ⟨rfl, rfl, rfl⟩
  | displayString aString =>
    simp [Op.apply, displayString, ha] at h; subst h; exact ⟨rfl, rfl, rfl⟩
  | setBrightness aValue =>
    simp [Op.apply, setBrightness, ha] at h; subst h; exact ⟨rfl, rfl, rfl⟩
  | setBrightnessGradually aValue =>
    simp [Op.apply, setBrightnessGradually, ha] at h; subst h; exact ⟨rfl, rfl, rfl⟩
  | controlPosition aPos aValue =>
    simp [Op.apply, controlPosition, ha] at h; subst h; exact ⟨rfl, rfl, rfl⟩
  | setPosition aPos aValue =>
    simp [Op.apply, setPosition, ha] at h; subst h; exact ⟨rfl, rfl, rfl⟩

/-- C10 fails on the code: on the four-digit driver left inactive by a failed
`init()`, `setDot(0, true)` changes the mirrored display byte of position 0
from 0 to 0x80 (nothing goes to the bus). -/
theorem setDot_mutates_inactive_mirror :
    (init false ready4).iActive = false ∧
      getPosition 0 (init false ready4) = 0 ∧
      (setDot 0 true (init false ready4)).map (getPosition 0) = some 0x80 ∧
      (setDot 0 true (init false ready4)).map (fun r => r.wire) = some (init false ready4).wire := by
  decide

/-! ## Raw register writes and the decimal point -/

theorem setPosition_spec (aPos aValue : Nat) (s : TM1650) (hact : s.iActive = true)
    (hpos : aPos < s.iNumDigits) :
    setPosition aPos aValue s =
      send (TM1650_DISPLAY_BASE + aPos) aValue { s with iBuffer := s.iBuffer.set aPos aValue } := by
  unfold setPosition
  rw [if_neg (by simp [hact]), if_pos hpos]

theorem controlPosition_spec (aPos aValue : Nat) (s : TM1650) (hact : s.iActive = true)
    (hpos : aPos < s.iNumDigits) :
    controlPosition aPos aValue s =
      send (TM1650_DCTRL_BASE + aPos) aValue { s with iCtrl := s.iCtrl.set aPos aValue } := by
  unfold controlPosition
  rw [if_neg (by simp [hact]), if_pos hpos]

theorem setPosition_ignored (aPos aValue : Nat) (s : TM1650)
    (h : ¬ (s.iActive = true ∧ aPos < s.iNumDigits)) : setPosition aPos aValue s = s := by
  unfold setPosition
  by_cases hact : s.iActive = true
  · rw [if_neg (by simp [hact]), if_neg (fun hp => h ⟨hact, hp⟩)]
  · rw [if_pos (by simpa using hact)]

theorem controlPosition_ignored (aPos aValue : Nat) (s : TM1650)
    (h : ¬ (s.iActive = true ∧ aPos < s.iNumDigits)) : controlPosition aPos aValue s = s := by
  unfold controlPosition
  by_cases hact : s.iActive = true
  · rw [if_neg (by simp [hact]), if_neg (fun hp => h ⟨hact, hp⟩)]
  · rw [if_pos (by simpa using hact)]

/-- C12: `setPosition` and `controlPosition` take effect exactly when the driver
is active and `pos` is below the digit count: then one byte, `value` as given,
goes to `0x34 + pos` (resp. `0x24 + pos`), the mirrored entry at `pos` becomes
`value`, and every other entry, the other mirror and the brightness stay;
otherwise the call leaves the whole state, transcript included, as it was. -/
theorem raw_writes_bounds_checked (pos value : Nat) (s : TM1650) (hwf : WF s) :
    (s.iActive = true ∧ pos < s.iNumDigits →
      ((setPosition pos value s).wire = s.wire ++ [WireEvent.write (0x34 + pos) value] ∧
        (setPosition pos value s).iBuffer.getD pos 0 = value ∧
        (∀ j, j ≠ pos → (setPosition pos value s).iBuffer.getD j 0 = s.iBuffer.getD j 0) ∧
        (setPosition pos value s).iCtrl = s.iCtrl ∧
        (setPosition pos value s).iBrightness = s.iBrightness) ∧
      ((controlPosition pos value s).wire = s.wire ++ [WireEvent.write (0x24 + pos) value] ∧
        (controlPosition pos value s).iCtrl.getD pos 0 = value ∧
        (∀ j, j ≠ pos → (controlPosition pos value s).iCtrl.getD j 0 = s.iCtrl.getD j 0) ∧
        (controlPosition pos value s).iBuffer = s.iBuffer ∧
        (controlPosition pos value s).iBrightness = s.iBrightness)) ∧
      (¬ (s.iActive = true ∧ pos < s.iNumDigits) →
        setPosition pos value s = s ∧ controlPosition pos value s = s) := by
  obtain ⟨h16, hbuf, hctrl, _⟩ := hwf
  simp only [TM1650_NUM_DIGITS] at h16 hbuf hctrl
  refine ⟨?_, fun h => ⟨setPosition_ignored pos value s h, controlPosition_ignored pos value s h⟩⟩
  rintro ⟨hact, hpos⟩
  rw [setPosition_spec pos value s hact hpos, controlPosition_spec pos value s hact hpos]
  refine ⟨⟨rfl, ?_, ?_, rfl, rfl⟩, ⟨rfl, ?_, ?_, rfl, rfl⟩⟩
  · exact getD_set_self _ _ _ (by omega)
  · intro j hj
    exact getD_set_other _ _ _ _ (fun h => hj h.symm)
  · exact getD_set_self _ _ _ (by omega)
  · intro j hj
    exact getD_set_other _ _ _ _ (fun h => hj h.symm)

/-- C12 on the four-digit display: position 2 takes the write, position 9 is
ignored. -/
theorem raw_writes_bounds_checked_witness :
    WF ready4 ∧ (ready4.iActive = true ∧ 2 < ready4.iNumDigits) ∧
      (setPosition 2 0x5B ready4).wire = ready4.wire ++ [WireEvent.write (0x34 + 2) 0x5B] ∧
      ¬ (ready4.iActive = true ∧ 9 < ready4.iNumDigits) ∧
      setPosition 9 0x5B ready4 = ready4 ∧ controlPosition 9 0x5B ready4 = ready4 :=
  ⟨by decide, by decide,
    ((raw_writes_bounds_checked 2 0x5B ready4 (by decide)).1 (by decide)).1.1,
    by decide,
    (raw_writes_bounds_checked 9 0x5B ready4 (by decide)).2 (by decide)⟩

set_option maxRecDepth 100000 in
theorem dotBits_small : ∀ x, x < 256 →
    (x &&& 0x7F) ||| 0x80 = x ||| 0x80 ∧ ((x &&& 0x7F) ||| 0x80) &&& 0x7F = x &&& 0x7F ∧
      (x &&& 0x7F) &&& 0x7F = x &&& 0x7F := by
  decide

theorem setDot_spec (aPos : Nat) (aState : Bool) (s : TM1650) (hact : s.iActive = true)
    (hpos : aPos < s.iNumDigits) (hlen : s.iNumDigits ≤ s.iBuffer.length) :
    setDot aPos aState s =
      some (send (TM1650_DISPLAY_BASE + aPos)
        ((s.iBuffer.getD aPos 0 &&& 0x7F) ||| (if aState then 0b10000000 else 0))
        { s with iBuffer := s.iBuffer.set aPos ((s.iBuffer.getD aPos 0 &&& 0x7F) ||| (if aState then 0b10000000 else 0)) }) := by
  have hp : aPos < s.iBuffer.length := by omega
  simp only [setDot, hp, if_true]
  rw [setPosition_spec _ _ _ (by exact hact) (by exact hpos)]
  simp only [getD_set_self _ _ _ hp, List.set_set]

/-- C11: on an active driver, for a digit position holding the byte `x`,
`setDot(pos, true)` makes the mirror `x OR 0x80` and `setDot(pos, false)` makes
it `x AND 0x7F`; the low seven bits stay, every other position and the control
mirror stay, and the one byte added to the transcript is the new value, written
to `0x34 + pos`. -/
theorem setDot_sets_only_bit7 (pos : Nat) (s : TM1650) (hact : s.iActive = true)
    (hwf : WF s) (hpos : pos < s.iNumDigits) (hbyte : getPosition pos s < 256) :
    (∃ r, setDot pos true s = some r ∧
        getPosition pos r = getPosition pos s ||| 0x80 ∧
        getPosition pos r &&& 0x7F = getPosition pos s &&& 0x7F ∧
        (∀ j, j ≠ pos → getPosition j r = getPosition j s) ∧ r.iCtrl = s.iCtrl ∧
        r.wire = s.wire ++ [WireEvent.write (0x34 + pos) (getPosition pos s ||| 0x80)]) ∧
      (∃ r, setDot pos false s = some r ∧
        getPosition pos r = getPosition pos s &&& 0x7F ∧
        getPosition pos r &&& 0x7F = getPosition pos s &&& 0x7F ∧
        (∀ j, j ≠ pos → getPosition j r = getPosition j s) ∧ r.iCtrl = s.iCtrl ∧
        r.wire = s.wire ++ [WireEvent.write (0x34 + pos) (getPosition pos s &&& 0x7F)]) := by
  obtain ⟨h16, hbuf, _, _⟩ := hwf
  simp only [TM1650_NUM_DIGITS] at h16 hbuf
  have hlen : s.iNumDigits ≤ s.iBuffer.length := by omega
  have hp : pos < s.iBuffer.length := by omega
  obtain ⟨b1, b2, b3⟩ := dotBits_small (getPosition pos s) hbyte
  simp only [getPosition] at b1 b2 b3 ⊢
  constructor
  · refine ⟨_, setDot_spec pos true s hact hpos hlen, ?_, ?_, ?_, rfl, ?_⟩
    · simp only [send, if_true]
      rw [getD_set_self _ _ _ hp]
      exact b1
    · simp only [send, if_true]
      rw [getD_set_self _ _ _ hp]
      exact b2
    · intro j hj
      exact getD_set_other _ _ _ _ (fun h => hj h.symm)
    · simp only [send, if_true, TM1650_DISPLAY_BASE]
      rw [b1]
  · refine ⟨_, setDot_spec pos false s hact hpos hlen, ?_, ?_, ?_, rfl, ?_⟩
    · simp only [send, Bool.false_eq_true, if_false, Nat.or_zero]
      exact getD_set_self _ _ _ hp
    · simp only [send, Bool.false_eq_true, if_false, Nat.or_zero]
      rw [getD_set_self _ _ _ hp]
      exact b3
    · intro j hj
      exact getD_set_other _ _ _ _ (fun h => hj h.symm)
    · simp only [send, Bool.false_eq_true, if_false, Nat.or_zero, TM1650_DISPLAY_BASE]

set_option maxRecDepth 10000 in
/-- C11 on the display showing "0000": the dot of position 1. -/
theorem setDot_sets_only_bit7_witness :
    shown4.iActive = true ∧ WF shown4 ∧ 1 < shown4.iNumDigits ∧ getPosition 1 shown4 < 256 ∧
      ∃ r, setDot 1 true shown4 = some r ∧
        getPosition 1 r = getPosition 1 shown4 ||| 0x80 ∧
        r.wire = shown4.wire ++ [WireEvent.write (0x34 + 1) (getPosition 1 shown4 ||| 0x80)] :=
  ⟨by decide, by decide, by decide, by decide,
    match (setDot_sets_only_bit7 1 shown4 (by decide) (by decide) (by decide) (by decide)).1 with
    | ⟨r, h1, h2, _, _, _, h6⟩ => ⟨r, h1, h2, h6⟩⟩

/-! ## Display on and off, initialisation -/

set_option maxRecDepth 100000 in
theorem onOffBits_small : ∀ y, y < 256 →
    ((y &&& 0xFE) ||| 0x01) &&& 0xFE = y &&& 0xFE ∧ ((y &&& 0xFE) ||| 0x01) &&& 0x70 = y &&& 0x70 ∧
      (y &&& 0xFE) &&& 0xFE = y &&& 0xFE ∧ (y &&& 0xFE) &&& 0x70 = y &&& 0x70 := by
  decide

theorem onOffBits (x : Nat) :
    ((x &&& 0xFE) ||| 0x01) &&& 0xFE = x &&& 0xFE ∧ ((x &&& 0xFE) ||| 0x01) &&& 0x70 = x &&& 0x70 ∧
      (x &&& 0xFE) &&& 0xFE = x &&& 0xFE ∧ (x &&& 0xFE) &&& 0x70 = x &&& 0x70 := by
  have h := onOffBits_small (x % 256) (Nat.mod_lt _ (by decide))
  rw [← and_mask_mod x 0xFE (by decide), ← and_mask_mod x 0x70 (by decide)] at h
  exact h

theorem displayOnBody_eq (b : Nat) (i : Nat) (t : TM1650) (hi : i < t.iCtrl.length)
    (_hb : t.iBrightness = b) :
    displayOnBody i t = ctrlStep (fun x => (x &&& TM1650_MSK_ONOFF) ||| TM1650_BIT_DOT) i t := by
  simp only [displayOnBody, ctrlStep]
  rw [getD_set_self _ _ _ hi]

theorem displayOffBody_eq (b : Nat) (i : Nat) (t : TM1650) (hi : i < t.iCtrl.length)
    (_hb : t.iBrightness = b) :
    displayOffBody i t = ctrlStep (fun x => x &&& TM1650_MSK_ONOFF) i t := by
  simp only [displayOffBody, ctrlStep]
  rw [getD_set_self _ _ _ hi]

theorem displayOn_spec (s : TM1650) (hact : s.iActive = true)
    (hlen : s.iNumDigits ≤ s.iCtrl.length) :
    (displayOn s).wire =
        s.wire ++ (List.range s.iNumDigits).map (fun i =>
          WireEvent.write (TM1650_DCTRL_BASE + i)
            ((s.iCtrl.getD i 0 &&& TM1650_MSK_ONOFF) ||| TM1650_BIT_DOT)) ∧
      (∀ i, (displayOn s).iCtrl.getD i 0 =
        if i < s.iNumDigits then (s.iCtrl.getD i 0 &&& TM1650_MSK_ONOFF) ||| TM1650_BIT_DOT
        else s.iCtrl.getD i 0) ∧
      ctrlFrame s (displayOn s) := by
  have hun : displayOn s = forLoop s.iNumDigits displayOnBody s := by
    unfold displayOn
    rw [if_neg (by simp [hact])]
  rw [hun]
  exact ctrlLoop_spec _ displayOnBody s.iBrightness (displayOnBody_eq s.iBrightness)
    s.iNumDigits s hlen rfl

theorem displayOff_spec (s : TM1650) (hact : s.iActive = true)
    (hlen : s.iNumDigits ≤ s.iCtrl.length) :
    (displayOff s).wire =
        s.wire ++ (List.range s.iNumDigits).map (fun i =>
          WireEvent.write (TM1650_DCTRL_BASE + i) (s.iCtrl.getD i 0 &&& TM1650_MSK_ONOFF)) ∧
      (∀ i, (displayOff s).iCtrl.getD i 0 =
        if i < s.iNumDigits then s.iCtrl.getD i 0 &&& TM1650_MSK_ONOFF
        else s.iCtrl.getD i 0) ∧
      ctrlFrame s (displayOff s) := by
  have hun : displayOff s = forLoop s.iNumDigits displayOffBody s := by
    unfold displayOff
    rw [if_neg (by simp [hact])]
  rw [hun]
  exact ctrlLoop_spec _ displayOffBody s.iBrightness (displayOffBody_eq s.iBrightness)
    s.iNumDigits s hlen rfl

/-- C13: on an active driver `displayOn` makes every digit's control byte
`(old AND 0xFE) OR 0x01` and `displayOff` makes it `old AND 0xFE`, writing that
byte to `0x24 + i` digit by digit; bits 1-7 of each control byte (the
brightness bits 4-6 among them), the display mirror and the brightness stay;
`displayState` is `displayOn` for true and `displayOff` for false. -/
theorem displayOn_Off_change_only_bit0 (s : TM1650) (hact : s.iActive = true) (hwf : WF s) :
    ((∀ i, i < s.iNumDigits →
        (displayOn s).iCtrl.getD i 0 = (s.iCtrl.getD i 0 &&& 0xFE) ||| 0x01) ∧
      (displayOn s).wire =
        s.wire ++ (List.range s.iNumDigits).map (fun i =>
          WireEvent.write (0x24 + i) ((s.iCtrl.getD i 0 &&& 0xFE) ||| 0x01))) ∧
      ((∀ i, i < s.iNumDigits → (displayOff s).iCtrl.getD i 0 = s.iCtrl.getD i 0 &&& 0xFE) ∧
      (displayOff s).wire =
        s.wire ++ (List.range s.iNumDigits).map (fun i =>
          WireEvent.write (0x24 + i) (s.iCtrl.getD i 0 &&& 0xFE))) ∧
      (∀ i, i < s.iNumDigits →
        (displayOn s).iCtrl.getD i 0 &&& 0xFE = s.iCtrl.getD i 0 &&& 0xFE ∧
        (displayOn s).iCtrl.getD i 0 &&& 0x70 = s.iCtrl.getD i 0 &&& 0x70 ∧
        (displayOff s).iCtrl.getD i 0 &&& 0xFE = s.iCtrl.getD i 0 &&& 0xFE ∧
        (displayOff s).iCtrl.getD i 0 &&& 0x70 = s.iCtrl.getD i 0 &&& 0x70) ∧
      ((displayOn s).iBuffer = s.iBuffer ∧ getBrightness (displayOn s) = getBrightness s ∧
        (displayOff s).iBuffer = s.iBuffer ∧ getBrightness (displayOff s) = getBrightness s) ∧
      (displayState true s = displayOn s ∧ displayState false s = displayOff s) := by
  have hlen : s.iNumDigits ≤ s.iCtrl.length := by
    obtain ⟨h1, _, h3, _⟩ := hwf
    rw [h3]
    exact h1
  obtain ⟨a1, a2, fa⟩ := displayOn_spec s hact hlen
  obtain ⟨b1, b2, fb⟩ := displayOff_spec s hact hlen
  have hon : ∀ i, i < s.iNumDigits →
      (displayOn s).iCtrl.getD i 0 = (s.iCtrl.getD i 0 &&& 0xFE) ||| 0x01 := by
    intro i hi
    rw [a2 i, if_pos hi]
    rfl
  have hoff : ∀ i, i < s.iNumDigits →
      (displayOff s).iCtrl.getD i 0 = s.iCtrl.getD i 0 &&& 0xFE := by
    intro i hi
    rw [b2 i, if_pos hi]
    rfl
  refine ⟨⟨hon, a1⟩, ⟨hoff, b1⟩, ?_, ⟨fa.2.2.2.2.2.1, fa.2.2.2.2.1, fb.2.2.2.2.2.1, fb.2.2.2.2.1⟩,
    ⟨rfl, rfl⟩⟩
  intro i hi
  rw [hon i hi, hoff i hi]
  exact onOffBits (s.iCtrl.getD i 0)

/-- C13 on the four-digit display. -/
theorem displayOn_Off_change_only_bit0_witness :
    ready4.iActive = true ∧ WF ready4 ∧
      (displayOff ready4).wire =
        ready4.wire ++ (List.range ready4.iNumDigits).map (fun i =>
          WireEvent.write (0x24 + i) (ready4.iCtrl.getD i 0 &&& 0xFE)) ∧
      displayState true ready4 = displayOn ready4 ∧ displayState false ready4 = displayOff ready4 :=
  ⟨by decide, by decide,
    (displayOn_Off_change_only_bit0 ready4 (by decide) (by decide)).2.1.2,
    (displayOn_Off_change_only_bit0 ready4 (by decide) (by decide)).2.2.2.2⟩

theorem initLoop_spec (n : Nat) (s : TM1650) (hb : n ≤ s.iBuffer.length)
    (hc : n ≤ s.iCtrl.length) :
    (∀ i, (forLoop n initBody s).iBuffer.getD i 0 = if i < n then 0 else s.iBuffer.getD i 0) ∧
      (∀ i, (forLoop n initBody s).iCtrl.getD i 0 = if i < n then 0 else s.iCtrl.getD i 0) ∧
      (forLoop n initBody s).iBuffer.length = s.iBuffer.length ∧
      (forLoop n initBody s).iCtrl.length = s.iCtrl.length ∧
      (forLoop n initBody s).wire = s.wire ∧ (forLoop n initBody s).iNumDigits = s.iNumDigits ∧
      (forLoop n initBody s).iPosition = s.iPosition ∧
      (forLoop n initBody s).iBrightness = s.iBrightness ∧
      (forLoop n initBody s).iString = s.iString := by
  induction n with
  | zero =>
    rw [forLoop_zero]
    exact ⟨fun i => by simp, fun i => by simp, rfl, rfl, rfl, rfl, rfl, rfl, rfl⟩
  | succ n ih =>
    obtain ⟨h1, h2, h3, h4, h5, h6, h7, h8, h9⟩ := ih (by omega) (by omega)
    rw [forLoop_succ]
    refine ⟨?_, ?_, ?_, ?_, h5, h6, h7, h8, h9⟩
    · intro i
      simp only [initBody]
      by_cases hin : i = n
      · subst hin
        rw [getD_set_self _ _ _ (by omega), if_pos (Nat.lt_succ_self i)]
      · rw [getD_set_other _ _ _ _ (fun h => hin h.symm), h1 i]
        by_cases hlt : i < n
        · rw [if_pos hlt, if_pos (by omega)]
        · rw [if_neg hlt, if_neg (by omega)]
    · intro i
      simp only [initBody]
      by_cases hin : i = n
      · subst hin
        rw [getD_set_self _ _ _ (by omega), if_pos (Nat.lt_succ_self i)]
      · rw [getD_set_other _ _ _ _ (fun h => hin h.symm), h2 i]
        by_cases hlt : i < n
        · rw [if_pos hlt, if_pos (by omega)]
        · rw [if_neg hlt, if_neg (by omega)]
    · simp only [initBody, List.length_set]
      exact h3
    · simp only [initBody, List.length_set]
      exact h4

theorem clearLoop_spec (n : Nat) (s : TM1650) (hb : n ≤ s.iBuffer.length) :
    (forLoop n clearBody s).wire =
        s.wire ++ (List.range n).map (fun i => WireEvent.write (TM1650_DISPLAY_BASE + i) 0) ∧
      (∀ i, (forLoop n clearBody s).iBuffer.getD i 0 = if i < n then 0 else s.iBuffer.getD i 0) ∧
      displayFrame s (forLoop n clearBody s) := by
  induction n with
  | zero =>
    rw [forLoop_zero]
    exact ⟨by simp, fun i => by simp, displayFrame_refl s⟩
  | succ n ih =>
    obtain ⟨h1, h2, g1, g2, g3, g4, g5, g6, g7⟩ := ih (by omega)
    rw [forLoop_succ]
    refine ⟨?_, ?_, g1, g2, g3, g4, g5, g6, ?_⟩
    · simp only [clearBody, send, h1, List.range_succ, List.map_append, List.map_singleton,
        List.append_assoc]
    · intro i
      simp only [clearBody, send]
      by_cases hin : i = n
      · subst hin
        rw [getD_set_self _ _ _ (by omega), if_pos (Nat.lt_succ_self i)]
      · rw [getD_set_other _ _ _ _ (fun h => hin h.symm), h2 i]
        by_cases hlt : i < n
        · rw [if_pos hlt, if_pos (by omega)]
        · rw [if_neg hlt, if_neg (by omega)]
    · simp only [clearBody, send, List.length_set]
      exact g7

theorem clear_spec (s : TM1650) (hact : s.iActive = true)
    (hlen : s.iNumDigits ≤ s.iBuffer.length) :
    (clear s).wire =
        s.wire ++ (List.range s.iNumDigits).map (fun i =>
          WireEvent.write (TM1650_DISPLAY_BASE + i) 0) ∧
      (∀ i, (clear s).iBuffer.getD i 0 = if i < s.iNumDigits then 0 else s.iBuffer.getD i 0) ∧
      displayFrame s (clear s) := by
  have hun : clear s = forLoop s.iNumDigits clearBody s := by
    unfold clear
    rw [if_neg (by simp [hact])]
  rw [hun]
  exact clearLoop_spec s.iNumDigits s hlen

theorem init_eq (ack : Bool) (s : TM1650) :
    init ack s =
      displayOn (clear
        { forLoop s.iNumDigits initBody { s with iPosition := none } with
          wire := (forLoop s.iNumDigits initBody { s with iPosition := none }).wire ++
            [WireEvent.probe TM1650_DISPLAY_BASE],
          iActive := ack }) := rfl

theorem init_acked_spec (s : TM1650) (hb : s.iNumDigits ≤ s.iBuffer.length)
    (hc : s.iNumDigits ≤ s.iCtrl.length) :
    (init true s).wire =
        s.wire ++ [WireEvent.probe TM1650_DISPLAY_BASE] ++
          (List.range s.iNumDigits).map (fun i => WireEvent.write (TM1650_DISPLAY_BASE + i) 0) ++
          (List.range s.iNumDigits).map (fun i => WireEvent.write (TM1650_DCTRL_BASE + i) 1) ∧
      (∀ i, i < s.iNumDigits → (init true s).iBuffer.getD i 0 = 0) ∧
      (∀ i, i < s.iNumDigits → (init true s).iCtrl.getD i 0 = 1) ∧
      (init true s).iPosition = none ∧ (init true s).iActive = true ∧
      (init true s).iNumDigits = s.iNumDigits ∧
      (init true s).iBuffer.length = s.iBuffer.length ∧
      (init true s).iCtrl.length = s.iCtrl.length ∧
      (init true s).iBrightness = s.iBrightness := by
  obtain ⟨i1, i2, i3, i4, i5, i6, i7, i8, _⟩ :=
    initLoop_spec s.iNumDigits { s with iPosition := none } hb hc
  rw [init_eq]
  generalize hs3 : ({ forLoop s.iNumDigits initBody { s with iPosition := none } with
      wire := (forLoop s.iNumDigits initBody { s with iPosition := none }).wire ++
        [WireEvent.probe TM1650_DISPLAY_BASE],
      iActive := true } : TM1650) = s3
  have e_wire : s3.wire = s.wire ++ [WireEvent.probe TM1650_DISPLAY_BASE] := by
    rw [← hs3]; simp only [i5]
  have e_act : s3.iActive = true := by rw [← hs3]
  have e_n : s3.iNumDigits = s.iNumDigits := by rw [← hs3]; exact i6
  have e_bl : s3.iBuffer.length = s.iBuffer.length := by rw [← hs3]; exact i3
  have e_cl : s3.iCtrl.length = s.iCtrl.length := by rw [← hs3]; exact i4
  have e_c : ∀ i, i < s.iNumDigits → s3.iCtrl.getD i 0 = 0 := by
    intro i hi
    rw [← hs3]
    have := i2 i
    rw [if_pos hi] at this
    exact this
  have e_pos : s3.iPosition = none := by rw [← hs3]; exact i7
  have e_br : s3.iBrightness = s.iBrightness := by rw [← hs3]; exact i8
  obtain ⟨c1, c2, d1, d2, d3, d4, d5, d6, d7⟩ := clear_spec s3 e_act (by omega)
  obtain ⟨o1, o2, f1, f2, f3, f4, f5, f6, f7⟩ :=
    displayOn_spec (clear s3) (d4.trans e_act) (by rw [d3, d6]; omega)
  rw [d3, e_n] at o1 o2
  rw [e_n] at c1 c2
  have hval : ∀ i, i < s.iNumDigits →
      ((clear s3).iCtrl.getD i 0 &&& TM1650_MSK_ONOFF) ||| TM1650_BIT_DOT = 1 := by
    intro i hi
    rw [d6, e_c i hi]
    rfl
  refine ⟨?_, ?_, ?_, ?_, ?_, ?_, ?_, ?_, ?_⟩
  · rw [o1, c1, e_wire]
    congr 1
    apply List.map_congr_left
    intro i hi
    rw [hval i (List.mem_range.mp hi)]
  · intro i hi
    rw [f6, c2 i, if_pos hi]
  · intro i hi
    rw [o2 i, if_pos hi]
    exact hval i hi
  · rw [f2, d2, e_pos]
  · rw [f4, d4, e_act]
  · rw [f3, d3, e_n]
  · rw [f6, d7, e_bl]
  · rw [f7, d6, e_cl]
  · rw [f5, d5, e_br]

theorem init_sets_active (ack : Bool) (s : TM1650) : (init ack s).iActive = ack := by
  cases ack with
  | false => exact (init_failed_idle s).1
  | true =>
    rw [init_eq]
    have h1 : ∀ t : TM1650, (clear t).iActive = t.iActive := by
      intro t
      unfold clear
      split
      · rfl
      · exact forLoop_invariant (fun r => r.iActive = t.iActive) clearBody
          (fun i r h => h) _ t rfl
    have h2 : ∀ t : TM1650, (displayOn t).iActive = t.iActive := by
      intro t
      unfold displayOn
      split
      · rfl
      · exact forLoop_invariant (fun r => r.iActive = t.iActive) displayOnBody
          (fun i r h => h) _ t rfl
    rw [h2, h1]

/-- C14: `init()` leaves `active` equal to the acknowledgement of the probe of
address 0x34; when the probe is acknowledged, from any prior state, every digit
has display mirror 0 and control mirror 0x01, the scroll cursor is null, and
after the probe the bus sees exactly one write of 0x00 to each `0x34 + i`
followed by one write of 0x01 to each `0x24 + i`. -/
theorem init_probes_clears_and_turns_on (s : TM1650) (hwf : WF s) :
    (∀ ack, ((init ack s).iActive = true ↔ ack = true)) ∧
      (init false s).wire = s.wire ++ [WireEvent.probe 0x34] ∧
      (∀ i, i < s.iNumDigits →
        (init true s).iBuffer.getD i 0 = 0 ∧ (init true s).iCtrl.getD i 0 = 0x01) ∧
      (init true s).iPosition = none ∧
      (init true s).wire =
        s.wire ++ [WireEvent.probe 0x34] ++
          (List.range s.iNumDigits).map (fun i => WireEvent.write (0x34 + i) 0x00) ++
          (List.range s.iNumDigits).map (fun i => WireEvent.write (0x24 + i) 0x01) := by
  obtain ⟨h16, hbuf, hctrl, _⟩ := hwf
  simp only [TM1650_NUM_DIGITS] at h16 hbuf hctrl
  obtain ⟨a1, a2, a3, a4, _⟩ := init_acked_spec s (by omega) (by omega)
  refine ⟨?_, (init_failed_idle s).2.1, fun i hi => ⟨a2 i hi, a3 i hi⟩, a4, a1⟩
  intro ack
  rw [init_sets_active]

set_option maxRecDepth 10000 in
/-- C14 on the four-digit display, re-initialised. -/
theorem init_probes_clears_and_turns_on_witness :
    WF shown4 ∧ (init true shown4).iPosition = none ∧
      (init true shown4).wire =
        shown4.wire ++ [WireEvent.probe 0x34] ++
          (List.range shown4.iNumDigits).map (fun i => WireEvent.write (0x34 + i) 0x00) ++
          (List.range shown4.iNumDigits).map (fun i => WireEvent.write (0x24 + i) 0x01) :=
  ⟨by decide, (init_probes_clears_and_turns_on shown4 (by decide)).2.2.2.1,
    (init_probes_clears_and_turns_on shown4 (by decide)).2.2.2.2⟩

/-! ## The segment table -/

set_option maxRecDepth 100000 in
theorem table_low_codes : ∀ c, c < 0x20 → TM1650_CDigits.getD c 0 = 0 := by
  decide

set_option maxRecDepth 100000 in
theorem table_bit7_small : ∀ c, c < 128 → c ≠ 0x21 → c ≠ 0x2E →
    TM1650_CDigits.getD c 0 &&& 0x80 = 0 := by
  decide

set_option maxRecDepth 100000 in
theorem written_bit7_small : ∀ y, y < 256 →
    (TM1650_CDigits.getD (y &&& 0x7F) 0 ||| (y &&& 0x80)) &&& 0x80 =
      if y &&& 0x7F = 0x21 ∨ y &&& 0x7F = 0x2E then 0x80 else y &&& 0x80 := by
  decide

theorem code_lt_length (ch : Nat) : ch &&& 0x7F < TM1650_CDigits.length := by
  have h : ch &&& 0x7F ≤ 0x7F := Nat.and_le_right
  have hl : TM1650_CDigits.length = 128 := rfl
  omega

/-- C15: the table has an entry for each of the 128 codes (the 7-bit code of
any character indexes inside it), every code below 0x20 and the code 0x7F map
to 0x00, and so a character with such a code that `displayString` reaches
leaves 0 in the mirror and puts only its dot flag on the bus. -/
theorem nonprintable_codes_are_blank (aString : List Nat) (s : TM1650) (m i : Nat)
    (hact : s.iActive = true) (hwf : WF s) (hm : m ≤ s.iNumDigits)
    (hnz : ∀ j, j < m → aString.getD j 0 &&& 0x7F ≠ 0)
    (hz : m < s.iNumDigits → aString.getD m 0 &&& 0x7F = 0) (hi : i < m)
    (hcode : aString.getD i 0 &&& 0x7F < 0x20 ∨ aString.getD i 0 &&& 0x7F = 0x7F) :
    TM1650_CDigits.length = 128 ∧ (∀ ch : Nat, ch &&& 0x7F < TM1650_CDigits.length) ∧
      (∀ c, c < 0x20 ∨ c = 0x7F → TM1650_CDigits.getD c 0 = 0x00) ∧
      getPosition i (displayString aString s) = 0x00 ∧
      lastWrite (displayString aString s).wire (0x34 + i) = some (aString.getD i 0 &&& 0x80) := by
  have htab : ∀ c, c < 0x20 ∨ c = 0x7F → TM1650_CDigits.getD c 0 = 0x00 := by
    intro c hc
    rcases hc with h | h
    · exact table_low_codes c h
    · subst h; rfl
  have hlen : s.iNumDigits ≤ s.iBuffer.length := by
    obtain ⟨h1, h2, _, _⟩ := hwf
    simp only [TM1650_NUM_DIGITS] at h1 h2
    omega
  obtain ⟨w1, w2⟩ := displayString_window aString s m i hact hlen hm hnz hz hi
  have hpat : digitPattern aString i = 0 := htab _ hcode
  rw [hpat] at w1 w2
  refine ⟨rfl, code_lt_length, htab, w1, ?_⟩
  rw [Nat.zero_or] at w2
  exact w2

set_option maxRecDepth 10000 in
/-- C15 at a tab followed by 'A' on four digits. -/
theorem nonprintable_codes_are_blank_witness :
    ready4.iActive = true ∧ WF ready4 ∧
      getPosition 0 (displayString [0x09, 0x41] ready4) = 0x00 ∧
      lastWrite (displayString [0x09, 0x41] ready4).wire (0x34 + 0) =
        some (([0x09, 0x41] : List Nat).getD 0 0 &&& 0x80) :=
  ⟨by decide, by decide,
    (nonprintable_codes_are_blank [0x09, 0x41] ready4 2 0 (by decide) (by decide) (by decide)
      (by decide) (by decide) (by decide) (by decide)).2.2.2⟩

/-- C17 (as stated) fails: the entry of '.' (0x2E) is 0x80 and the entry of '!'
(0x21) is 0x82, so `displayString(".")` lights the decimal point of digit 0
although the character's high bit is clear. -/
theorem table_bit7_counterexample :
    (0x2E : Nat) < 128 ∧ TM1650_CDigits.getD 0x2E 0 &&& 0x80 ≠ 0 ∧
      TM1650_CDigits.getD 0x21 0 &&& 0x80 ≠ 0 ∧ (0x2E : Nat) &&& 0x80 = 0 ∧
      (displayString [0x2E] ready4).wire = [WireEvent.write 0x34 0x80] := by
  decide

set_option maxRecDepth 100000 in
theorem dotByte_bit7_small : ∀ y, y < 256 →
    ((y &&& 0x7F) ||| 0x80) &&& 0x80 = 0x80 ∧ (y &&& 0x7F) &&& 0x80 = 0 := by
  decide

theorem dotByte_bit7 (x : Nat) (aState : Bool) :
    ((x &&& 0x7F) ||| (if aState then 0b10000000 else 0)) &&& 0x80 =
      if aState then 0x80 else 0 := by
  have h := dotByte_bit7_small (x % 256) (Nat.mod_lt _ (by decide))
  rw [← and_mask_mod x 0x7F (by decide)] at h
  cases aState with
  | true => simpa using h.1
  | false => simpa using h.2

/-- C17 (as the code has it): bit 7 is clear in every table entry but those of
'!' (0x21, pattern 0x82) and '.' (0x2E, pattern 0x80). On an active driver the
bytes `displayString` writes are the table pattern OR the character's high bit,
so their bit 7 is the character's high bit, except for these two codes, where
it is always set; the byte `setDot` writes has bit 7 as its `state` says;
`setPosition` writes its value, bit 7 included, as given; `clear` writes 0. -/
theorem table_bit7_only_for_bang_and_dot (c : Nat) (hc : c < 128) (aString : List Nat)
    (s : TM1650) (m pos value : Nat) (aState : Bool) (hact : s.iActive = true) (hwf : WF s)
    (hm : m ≤ s.iNumDigits) (hnz : ∀ i, i < m → aString.getD i 0 &&& 0x7F ≠ 0)
    (hz : m < s.iNumDigits → aString.getD m 0 &&& 0x7F = 0) (hpos : pos < s.iNumDigits) :
    ((c ≠ 0x21 → c ≠ 0x2E → TM1650_CDigits.getD c 0 &&& 0x80 = 0) ∧
      TM1650_CDigits.getD 0x21 0 = 0x82 ∧ TM1650_CDigits.getD 0x2E 0 = 0x80) ∧
      ((displayString aString s).wire =
          s.wire ++ (List.range m).map (fun i =>
            WireEvent.write (0x34 + i)
              (TM1650_CDigits.getD (aString.getD i 0 &&& 0x7F) 0 |||
                (aString.getD i 0 &&& 0x80))) ∧
        (∀ ch : Nat, (TM1650_CDigits.getD (ch &&& 0x7F) 0 ||| (ch &&& 0x80)) &&& 0x80 =
          if ch &&& 0x7F = 0x21 ∨ ch &&& 0x7F = 0x2E then 0x80 else ch &&& 0x80)) ∧
      ((setDot pos aState s).map (fun r => r.wire) =
          some (s.wire ++ [WireEvent.write (0x34 + pos)
            ((getPosition pos s &&& 0x7F) ||| (if aState then 0x80 else 0))]) ∧
        ((getPosition pos s &&& 0x7F) ||| (if aState then 0x80 else 0)) &&& 0x80 =
          (if aState then 0x80 else 0)) ∧
      (setPosition pos value s).wire = s.wire ++ [WireEvent.write (0x34 + pos) value] ∧
      (clear s).wire =
        s.wire ++ (List.range s.iNumDigits).map (fun i => WireEvent.write (0x34 + i) 0) := by
  obtain ⟨h16, hbuf, _, _⟩ := hwf
  simp only [TM1650_NUM_DIGITS] at h16 hbuf
  have hlen : s.iNumDigits ≤ s.iBuffer.length := by omega
  obtain ⟨d1, _, _, _⟩ := displayString_spec aString s m hact hlen hm hnz hz
  obtain ⟨c1, _, _⟩ := clear_spec s hact hlen
  refine ⟨⟨table_bit7_small c hc, rfl, rfl⟩, ⟨d1, ?_⟩, ⟨?_, ?_⟩, ?_, c1⟩
  · intro ch
    have h := written_bit7_small (ch % 256) (Nat.mod_lt _ (by decide))
    rw [← and_mask_mod ch 0x7F (by decide), ← and_mask_mod ch 0x80 (by decide)] at h
    exact h
  · rw [setDot_spec pos aState s hact hpos hlen]
    rfl
  · exact dotByte_bit7 (getPosition pos s) aState
  · rw [setPosition_spec pos value s hact hpos]
    rfl

set_option maxRecDepth 10000 in
/-- C17 (as the code has it) at the letter 'A', the text "A." and the dot of
position 1 on four digits. -/
theorem table_bit7_only_for_bang_and_dot_witness :
    (0x41 : Nat) < 128 ∧ ready4.iActive = true ∧ WF ready4 ∧
      TM1650_CDigits.getD 0x41 0 &&& 0x80 = 0 ∧
      (displayString [0x41, 0x2E] ready4).wire =
        ready4.wire ++ (List.range 2).map (fun i =>
          WireEvent.write (0x34 + i)
            (TM1650_CDigits.getD (([0x41, 0x2E] : List Nat).getD i 0 &&& 0x7F) 0 |||
              (([0x41, 0x2E] : List Nat).getD i 0 &&& 0x80))) ∧
      (setDot 1 true ready4).map (fun r => r.wire) =
        some (ready4.wire ++ [WireEvent.write (0x34 + 1)
          ((getPosition 1 ready4 &&& 0x7F) ||| (if true then 0x80 else 0))]) ∧
      (setPosition 1 0x80 ready4).wire = ready4.wire ++ [WireEvent.write (0x34 + 1) 0x80] :=
  ⟨by decide, by decide, by decide,
    (table_bit7_only_for_bang_and_dot 0x41 (by decide) [0x41, 0x2E] ready4 2 1 0x80 true
      (by decide) (by decide) (by decide) (by decide) (by decide) (by decide)).1.1
      (by decide) (by decide),
    (table_bit7_only_for_bang_and_dot 0x41 (by decide) [0x41, 0x2E] ready4 2 1 0x80 true
      (by decide) (by decide) (by decide) (by decide) (by decide) (by decide)).2.1.1,
    (table_bit7_only_for_bang_and_dot 0x41 (by decide) [0x41, 0x2E] ready4 2 1 0x80 true
      (by decide) (by decide) (by decide) (by decide) (by decide) (by decide)).2.2.1.1,
    (table_bit7_only_for_bang_and_dot 0x41 (by decide) [0x41, 0x2E] ready4 2 1 0x80 true
      (by decide) (by decide) (by decide) (by decide) (by decide) (by decide)).2.2.2.1⟩

/-! ## The calls made by the fade -/

theorem gradualLoop_succ (aValue : Nat) (up : Bool) (fuel i : Nat) (s : TM1650) :
    gradualLoop aValue up (fuel + 1) i s =
      if (if up then (i + 1) % 256 else (i + 255) % 256) ≠ aValue then
        gradualLoop aValue up fuel (if up then (i + 1) % 256 else (i + 255) % 256) (fadeStep i s)
      else some (fadeStep i s) := rfl

theorem fadeCalls_cons (a : Nat) (args : List Nat) (s : TM1650) :
    fadeCalls (a :: args) s = fadeCalls args (fadeStep a s) := rfl

theorem range_map_up (i d : Nat) :
    (List.range (d + 1)).map (fun j => i + j) =
      i :: (List.range d).map (fun j => i + 1 + j) := by
  rw [List.range_succ_eq_map, List.map_cons, List.map_map]
  congr 1
  apply List.map_congr_left
  intro j _
  simp only [Function.comp, Nat.succ_eq_add_one]
  omega

theorem range_map_down (i d : Nat) :
    (List.range (d + 1)).map (fun j => i - j) =
      i :: (List.range d).map (fun j => i - 1 - j) := by
  rw [List.range_succ_eq_map, List.map_cons, List.map_map]
  congr 1
  apply List.map_congr_left
  intro j _
  simp only [Function.comp, Nat.succ_eq_add_one]
  omega

theorem gradualLoop_up_calls (v : Nat) (hv : v < 256) :
    ∀ (d fuel i : Nat) (s : TM1650), i + d + 1 = v → d < fuel →
      gradualLoop v true fuel i s =
        some (fadeCalls ((List.range (d + 1)).map (fun j => i + j)) s) := by
  intro d
  induction d with
  | zero =>
    intro fuel i s hi hf
    obtain ⟨f, rfl⟩ : ∃ f, fuel = f + 1 := ⟨fuel - 1, by omega⟩
    have hexit : (i + 1) % 256 = v := by omega
    rw [gradualLoop_succ]
    simp only [if_true, hexit, ne_eq, not_true_eq_false, if_false]
    rfl
  | succ d ih =>
    intro fuel i s hi hf
    obtain ⟨f, rfl⟩ : ∃ f, fuel = f + 1 := ⟨fuel - 1, by omega⟩
    have hnext : (i + 1) % 256 = i + 1 := by omega
    have hne : i + 1 ≠ v := by omega
    rw [gradualLoop_succ]
    simp only [if_true, hnext, ne_eq, hne, not_false_eq_true]
    rw [ih f (i + 1) _ (by omega) (by omega), range_map_up i (d + 1), fadeCalls_cons]

theorem gradualLoop_down_calls (v : Nat) :
    ∀ (d fuel i : Nat) (s : TM1650), i = v + d + 1 → i < 256 → d < fuel →
      gradualLoop v false fuel i s =
        some (fadeCalls ((List.range (d + 1)).map (fun j => i - j)) s) := by
  intro d
  induction d with
  | zero =>
    intro fuel i s hi hi8 hf
    obtain ⟨f, rfl⟩ : ∃ f, fuel = f + 1 := ⟨fuel - 1, by omega⟩
    have hexit : (i + 255) % 256 = v := by omega
    rw [gradualLoop_succ]
    simp only [Bool.false_eq_true, if_false, hexit, ne_eq, not_true_eq_false]
    rfl
  | succ d ih =>
    intro fuel i s hi hi8 hf
    obtain ⟨f, rfl⟩ : ∃ f, fuel = f + 1 := ⟨fuel - 1, by omega⟩
    have hnext : (i + 255) % 256 = i - 1 := by omega
    have hne : i - 1 ≠ v := by omega
    rw [gradualLoop_succ]
    simp only [Bool.false_eq_true, if_false, hnext, ne_eq, hne, not_false_eq_true, if_true]
    rw [ih f (i - 1) _ (by omega) (by omega) (by omega), range_map_down i (d + 1), fadeCalls_cons]

theorem bytesWritten_append (w l : List WireEvent) :
    bytesWritten (w ++ l) = bytesWritten w + bytesWritten l := by
  simp [bytesWritten]

theorem delayCount_append (w l : List WireEvent) (ms : Nat) :
    delayCount (w ++ l) ms = delayCount w ms + delayCount l ms := by
  simp [delayCount]

theorem bytesWritten_writes (g : Nat → WireEvent) (hg : ∀ i, ∃ a v, g i = WireEvent.write a v) :
    ∀ n, bytesWritten ((List.range n).map g) = n := by
  intro n
  induction n with
  | zero => rfl
  | succ n ih =>
    rw [List.range_succ, List.map_append, bytesWritten_append, ih]
    obtain ⟨a, v, e⟩ := hg n
    simp [bytesWritten, e]

theorem delayCount_writes (g : Nat → WireEvent) (hg : ∀ i, ∃ a v, g i = WireEvent.write a v)
    (ms : Nat) : ∀ n, delayCount ((List.range n).map g) ms = 0 := by
  intro n
  induction n with
  | zero => rfl
  | succ n ih =>
    rw [List.range_succ, List.map_append, delayCount_append, ih]
    obtain ⟨a, v, e⟩ := hg n
    simp [delayCount, e]

theorem fadeStep_counts (i : Nat) (s : TM1650) (hact : s.iActive = true)
    (hlen : s.iNumDigits ≤ s.iCtrl.length) :
    bytesWritten (fadeStep i s).wire = bytesWritten s.wire + s.iNumDigits ∧
      delayCount (fadeStep i s).wire 50 = delayCount s.wire 50 + 1 ∧
      (fadeStep i s).iActive = true ∧ (fadeStep i s).iNumDigits = s.iNumDigits ∧
      (fadeStep i s).iCtrl.length = s.iCtrl.length := by
  obtain ⟨h1, _, _, _, _, h6, h7, _, h9⟩ := setBrightness_spec i s hact hlen
  have hw : (fadeStep i s).wire = (setBrightness i s).wire ++ [WireEvent.delay 50] := rfl
  refine ⟨?_, ?_, h7.trans hact, h6, h9⟩
  · rw [hw, h1, bytesWritten_append, bytesWritten_append,
      bytesWritten_writes _ (fun j => ⟨_, _, rfl⟩)]
    simp [bytesWritten]
  · rw [hw, h1, delayCount_append, delayCount_append,
      delayCount_writes _ (fun j => ⟨_, _, rfl⟩)]
    simp [delayCount]

theorem fadeCalls_counts :
    ∀ (args : List Nat) (s : TM1650), s.iActive = true → s.iNumDigits ≤ s.iCtrl.length →
      bytesWritten (fadeCalls args s).wire = bytesWritten s.wire + args.length * s.iNumDigits ∧
        delayCount (fadeCalls args s).wire 50 = delayCount s.wire 50 + args.length := by
  intro args
  induction args with
  | nil =>
    intro s _ _
    simp [fadeCalls]
  | cons a rest ih =>
    intro s hact hlen
    obtain ⟨c1, c2, c3, c4, c5⟩ := fadeStep_counts a s hact hlen
    obtain ⟨r1, r2⟩ := ih (fadeStep a s) c3 (by rw [c4, c5]; exact hlen)
    rw [fadeCalls_cons, r1, r2, c1, c2, c4, List.length_cons, Nat.add_mul]
    constructor <;> omega

theorem setBrightnessGradually_calls (v : Nat) (s : TM1650) (hact : s.iActive = true)
    (hb : s.iBrightness ≤ 7) (hv : v ≤ 7) :
    setBrightnessGradually v s =
      some (fadeCalls
        (if s.iBrightness ≤ v then (List.range (v - s.iBrightness)).map (fun j => s.iBrightness + j)
          else (List.range (s.iBrightness - v)).map (fun j => s.iBrightness - j)) s) := by
  by_cases heq : v = s.iBrightness
  · have h0 : setBrightnessGradually v s = some s := by
      simp [setBrightnessGradually, heq]
    rw [h0, if_pos (by omega), show v - s.iBrightness = 0 by omega]
    rfl
  · have hclamp : (if v > TM1650_MAX_BRIGHT then TM1650_MAX_BRIGHT else v) = v := by
      simp only [TM1650_MAX_BRIGHT]
      rw [if_neg (by omega)]
    have hd : decide (v = s.iBrightness) = false := by simpa using heq
    simp only [setBrightnessGradually, hact, hd, hclamp, Bool.not_true, Bool.or_false,
      Bool.false_eq_true, if_false]
    by_cases hlt : s.iBrightness < v
    · have hup : (!decide (v < s.iBrightness)) = true := by simp; omega
      rw [hup, if_pos (by omega),
        gradualLoop_up_calls v (by omega) (v - s.iBrightness - 1) 256 s.iBrightness s
          (by omega) (by omega),
        show v - s.iBrightness - 1 + 1 = v - s.iBrightness by omega]
    · have hdown : (!decide (v < s.iBrightness)) = false := by simp; omega
      rw [hdown, if_neg (by omega),
        gradualLoop_down_calls v (s.iBrightness - v - 1) 256 s.iBrightness s
          (by omega) (by omega) (by omega),
        show s.iBrightness - v - 1 + 1 = s.iBrightness - v by omega]

/-- C16: on an active driver with brightness `b` and target `v`, both in 0..7,
`setBrightnessGradually(v)` is the sequence of calls `setBrightness(a);
delay(50)` for `a = b, b+1, ...` (or `b, b-1, ...`), `|v - b|` of them, each
argument one step further towards `v`; that makes `|v - b| * digitCount` writes
and `|v - b|` delays of 50, and for `v = b` the state, transcript included,
stays as it was. -/
theorem setBrightnessGradually_makes_distance_calls (v : Nat) (s : TM1650)
    (hact : s.iActive = true) (hwf : WF s) (hb : s.iBrightness ≤ 7) (hv : v ≤ 7) :
    ∃ args : List Nat,
      args = (if s.iBrightness ≤ v then
          (List.range (v - s.iBrightness)).map (fun j => s.iBrightness + j)
        else (List.range (s.iBrightness - v)).map (fun j => s.iBrightness - j)) ∧
      setBrightnessGradually v s = some (fadeCalls args s) ∧
      args.length = (if s.iBrightness ≤ v then v - s.iBrightness else s.iBrightness - v) ∧
      bytesWritten (fadeCalls args s).wire =
        bytesWritten s.wire + args.length * s.iNumDigits ∧
      delayCount (fadeCalls args s).wire 50 = delayCount s.wire 50 + args.length ∧
      (v = s.iBrightness → setBrightnessGradually v s = some s) := by
  have hlen : s.iNumDigits ≤ s.iCtrl.length := by
    obtain ⟨h1, _, h3, _⟩ := hwf
    rw [h3]
    exact h1
  refine ⟨_, rfl, setBrightnessGradually_calls v s hact hb hv, ?_, ?_⟩
  · split <;> simp
  · obtain ⟨c1, c2⟩ := fadeCalls_counts
      (if s.iBrightness ≤ v then
          (List.range (v - s.iBrightness)).map (fun j => s.iBrightness + j)
        else (List.range (s.iBrightness - v)).map (fun j => s.iBrightness - j)) s hact hlen
    refine ⟨c1, c2, ?_⟩
    intro heq
    simp [setBrightnessGradually, heq]

set_option maxRecDepth 10000 in
/-- C16 from brightness 0 to 3 on four digits: the calls 0, 1, 2. -/
theorem setBrightnessGradually_makes_distance_calls_witness :
    ready4.iActive = true ∧ WF ready4 ∧ ready4.iBrightness ≤ 7 ∧
      ∃ args : List Nat, args = [0, 1, 2] ∧
        setBrightnessGradually 3 ready4 = some (fadeCalls args ready4) ∧
        bytesWritten (fadeCalls args ready4).wire = bytesWritten ready4.wire + 3 * 4 :=
  ⟨by decide, by decide, by decide,
    match setBrightnessGradually_makes_distance_calls 3 ready4 (by decide) (by decide)
      (by decide) (by decide) with
    | ⟨args, h1, h2, _, h4, _⟩ => ⟨args, h1, h2, by rw [h4, h1]; rfl⟩⟩

/-! ## The scroll buffer and its cursor -/

theorem takeWhile_getD_eq (l : List Nat) :
    ∀ p, p < strlen l → (l.takeWhile (fun c => c ≠ 0)).getD p 0 = l.getD p 0 := by
  induction l with
  | nil => intro p hp; simp [strlen] at hp
  | cons x xs ih =>
    intro p hp
    by_cases hx : x = 0
    · simp [strlen, hx] at hp
    · have hcons : (x :: xs).takeWhile (fun c => c ≠ 0) = x :: xs.takeWhile (fun c => c ≠ 0) := by
        rw [List.takeWhile_cons]
        simp only [hx, ne_eq, not_false_eq_true, decide_True, if_true]
      have hlen : strlen (x :: xs) = strlen xs + 1 := by
        simp only [strlen, hcons, List.length_cons]
      rw [hcons]
      cases p with
      | zero => rfl
      | succ p =>
        have := ih p (by omega)
        simpa using this

theorem strlen_le_length (l : List Nat) : strlen l ≤ l.length :=
  (List.takeWhile_prefix (fun c => decide (c ≠ 0))).length_le

theorem strlen_terminator (l : List Nat) : l.getD (strlen l) 0 = 0 := by
  induction l with
  | nil => rfl
  | cons x xs ih =>
    by_cases hx : x = 0
    · simp [strlen, hx]
    · have hlen : strlen (x :: xs) = strlen xs + 1 := by
        simp only [strlen]
        rw [List.takeWhile_cons]
        simp only [hx, ne_eq, not_false_eq_true, decide_True, if_true, List.length_cons]
      rw [hlen]
      simpa using ih

theorem take_eq_of_getD (a b : List Nat) (l : Nat) (ha : l ≤ a.length) (hb : l ≤ b.length)
    (h : ∀ p, p < l → a.getD p 0 = b.getD p 0) : a.take l = b.take l := by
  apply List.ext_getElem?
  intro n
  simp only [List.getElem?_take]
  by_cases hn : n < l
  · rw [if_pos hn, if_pos hn]
    have h1 := h n hn
    have hna : n < a.length := by omega
    have hnb : n < b.length := by omega
    rw [List.getD_eq_getElem?_getD, List.getD_eq_getElem?_getD,
      List.getElem?_eq_getElem hna, List.getElem?_eq_getElem hnb] at h1
    rw [List.getElem?_eq_getElem hna, List.getElem?_eq_getElem hnb]
    simpa using h1
  · rw [if_neg hn, if_neg hn]

/-- What `displayRunning` leaves in `iString`: the text cut at 128 bytes, then
a NUL. -/
theorem scrollBuffer_content (src old : List Nat) :
    ((strncpy src (TM1650_MAX_STRING + 1) ++ old.drop (TM1650_MAX_STRING + 1)).set
        TM1650_MAX_STRING 0).take (min (strlen src) 128) = src.take (min (strlen src) 128) ∧
      ((strncpy src (TM1650_MAX_STRING + 1) ++ old.drop (TM1650_MAX_STRING + 1)).set
        TM1650_MAX_STRING 0).getD (min (strlen src) 128) 0 = 0 ∧
      ((strncpy src (TM1650_MAX_STRING + 1) ++ old.drop (TM1650_MAX_STRING + 1)).set
        TM1650_MAX_STRING 0).length = 129 + (old.length - 129) := by
  have hl := strncpy_length src (TM1650_MAX_STRING + 1)
  have hs := scrollBuffer_strlen src old
  have hle := strlen_le_length src
  simp only [TM1650_MAX_STRING] at hl hs ⊢
  have hlen : ((strncpy src (128 + 1) ++ old.drop (128 + 1)).set 128 0).length =
      129 + (old.length - 129) := by
    simp only [List.length_set, List.length_append, hl, List.length_drop]
  refine ⟨?_, ?_, hlen⟩
  · apply take_eq_of_getD
    · rw [hlen]; omega
    · omega
    · intro p hp
      rw [getD_set_other _ _ _ _ (by omega), List.getD_append _ _ _ _ (by omega),
        strncpy_getD _ _ _ (by omega)]
      exact takeWhile_getD_eq src p (by omega)
  · have := strlen_terminator ((strncpy src (128 + 1) ++ old.drop (128 + 1)).set 128 0)
    rw [hs] at this
    exact this

theorem displayStringLoop_congr_upto (a b : List Nat) :
    ∀ (remaining i : Nat) (s : TM1650),
      (∀ p, i ≤ p → p < i + remaining →
        (∀ q, i ≤ q → q < p → a.getD q 0 &&& 0b01111111 ≠ 0) → a.getD p 0 = b.getD p 0) →
      displayStringLoop a remaining i s = displayStringLoop b remaining i s := by
  intro remaining
  induction remaining with
  | zero => intro i s _; rfl
  | succ r ih =>
    intro i s h
    have hi : a.getD i 0 = b.getD i 0 :=
      h i (Nat.le_refl i) (by omega) (fun q h1 h2 => by omega)
    simp only [displayStringLoop, ← hi]
    split
    · rename_i hnz
      apply ih
      intro p hp1 hp2 hq
      apply h p (by omega) (by omega)
      intro q hq1 hq2
      by_cases hqi : q = i
      · subst hqi
        exact hnz
      · exact hq q (by omega) hq2
    · rfl

/-- The outcome of `displayString` depends on its argument up to the
terminating NUL only. -/
theorem displayString_reads_to_terminator (T other : List Nat) (t : TM1650)
    (h : ∀ p, p ≤ strlen T → other.getD p 0 = T.getD p 0) :
    displayString other t = displayString T t := by
  unfold displayString
  split
  · rfl
  · symm
    apply displayStringLoop_congr_upto
    intro p _ _ hq
    by_cases hp : p ≤ strlen T
    · exact (h p hp).symm
    · have hterm := strlen_terminator T
      have := hq (strlen T) (Nat.zero_le _) (by omega)
      rw [hterm] at this
      exact absurd rfl this

/-- C19: after `displayRunning(text)` and `k` shifts, for any text and any `k`,
`iString` holds the first `min (length text) 128` bytes of the text followed by
a NUL, the cursor offset is `min k (max (l - digits) 0)` for that length `l`,
it lies within the string, which lies within the 128 bytes before the last
array cell, and what `displayString` does with the cursor depends on nothing
beyond the terminating NUL. -/
theorem scroll_cursor_stays_in_text (aString : List Nat) (s : TM1650) (k : Nat) (hwf : WF s) :
    ∃ sk, shiftTimes k (displayRunning aString s).1 = some sk ∧
      sk.iString.take (min (strlen aString) 128) = aString.take (min (strlen aString) 128) ∧
      sk.iString.getD (min (strlen aString) 128) 0 = 0 ∧
      strlen sk.iString = min (strlen aString) 128 ∧ sk.iString.length = 129 ∧
      sk.iPosition = some (min k (min (strlen aString) 128 - s.iNumDigits)) ∧
      min k (min (strlen aString) 128 - s.iNumDigits) ≤ strlen sk.iString ∧
      strlen sk.iString ≤ 128 ∧
      (∀ other : List Nat,
        (∀ p, p ≤ strlen sk.iString - min k (min (strlen aString) 128 - s.iNumDigits) →
          other.getD p 0 =
            (cursorText (min k (min (strlen aString) 128 - s.iNumDigits)) sk).getD p 0) →
        displayString other sk =
          displayString (cursorText (min k (min (strlen aString) 128 - s.iNumDigits)) sk) sk) := by
  have hstate := displayRunning_state aString s
  have hf0 := displayString_frame (cursorText 0 { s with iString := (strncpy aString (TM1650_MAX_STRING + 1) ++ s.iString.drop (TM1650_MAX_STRING + 1)).set TM1650_MAX_STRING 0, iPosition := some 0 })
    { s with iString := (strncpy aString (TM1650_MAX_STRING + 1) ++ s.iString.drop (TM1650_MAX_STRING + 1)).set TM1650_MAX_STRING 0, iPosition := some 0 }
  rw [← hstate] at hf0
  obtain ⟨f1, f2, f3, _⟩ := hf0
  have hs1 : (displayRunning aString s).1.iString =
      (strncpy aString (TM1650_MAX_STRING + 1) ++ s.iString.drop (TM1650_MAX_STRING + 1)).set
        TM1650_MAX_STRING 0 := f1
  have hn1 : (displayRunning aString s).1.iNumDigits = s.iNumDigits := f3
  have hp1 : (displayRunning aString s).1.iPosition = some 0 := f2
  obtain ⟨c1, c2, c3⟩ := scrollBuffer_content aString s.iString
  have hl := scrollBuffer_strlen aString s.iString
  simp only [TM1650_MAX_STRING] at hl
  obtain ⟨sk, e1, e2, e3, e4, _, _⟩ := shiftTimes_cursor k (displayRunning aString s).1 0 hp1
  have hstr : sk.iString =
      (strncpy aString (TM1650_MAX_STRING + 1) ++ s.iString.drop (TM1650_MAX_STRING + 1)).set
        TM1650_MAX_STRING 0 := e3.trans hs1
  have hlen0 : strlen (cursorText 0 (displayRunning aString s).1) = min (strlen aString) 128 := by
    simp only [cursorText, List.drop_zero, hs1, TM1650_MAX_STRING]
    exact hl
  rw [hlen0, hn1, Nat.zero_add] at e2
  have hsl : strlen sk.iString = min (strlen aString) 128 := by
    rw [hstr]
    simp only [TM1650_MAX_STRING]
    exact hl
  have h129 : sk.iString.length = 129 := by
    rw [hstr, c3]
    obtain ⟨_, _, _, h4⟩ := hwf
    simp only [TM1650_MAX_STRING] at h4
    omega
  refine ⟨sk, e1, ?_, ?_, hsl, h129, e2, ?_, ?_, ?_⟩
  · rw [hstr]; exact c1
  · rw [hstr]; exact c2
  · rw [hsl]; omega
  · rw [hsl]; omega
  · intro other hother
    apply displayString_reads_to_terminator
    intro p hp
    apply hother p
    have hcur := strlen_drop_add sk.iString 0
      (min k (min (strlen aString) 128 - s.iNumDigits))
      (by simp only [List.drop_zero, hsl]; omega)
    simp only [List.drop_zero, Nat.zero_add] at hcur
    simp only [cursorText] at hp
    rw [hcur] at hp
    exact hp

set_option maxRecDepth 10000 in
/-- C19 at "HELLOWORLD" on four digits after nine shifts: the cursor rests at
offset 6. -/
theorem scroll_cursor_stays_in_text_witness :
    WF ready4 ∧
      ∃ sk, shiftTimes 9 (displayRunning helloWorld ready4).1 = some sk ∧
        strlen sk.iString = min (strlen helloWorld) 128 ∧
        sk.iPosition = some (min 9 (min (strlen helloWorld) 128 - ready4.iNumDigits)) :=
  ⟨by decide,
    match scroll_cursor_stays_in_text helloWorld ready4 9 (by decide) with
    | ⟨sk, h1, _, _, h4, _, h6, _⟩ => ⟨sk, h1, h4, h6⟩⟩

/-! ## The display mirror -/

theorem lastWrite_append (w l : List WireEvent) (addr : Nat) :
    lastWrite (w ++ l) addr =
      l.foldl (fun acc e => match e with
        | WireEvent.write a v => if a = addr then some v else acc
        | _ => acc) (lastWrite w addr) := by
  simp only [lastWrite, List.foldl_append]

theorem lastWrite_append_other (w l : List WireEvent) (addr : Nat)
    (h : ∀ e, e ∈ l → ∀ v, e ≠ WireEvent.write addr v) :
    lastWrite (w ++ l) addr = lastWrite w addr := by
  rw [lastWrite_append]
  generalize lastWrite w addr = acc
  induction l generalizing acc with
  | nil => rfl
  | cons e rest ih =>
    rw [List.foldl_cons]
    have hrest : ∀ e1, e1 ∈ rest → ∀ v, e1 ≠ WireEvent.write addr v :=
      fun e1 he1 => h e1 (List.mem_cons_of_mem _ he1)
    cases e with
    | probe a => exact ih hrest acc
    | delay ms => exact ih hrest acc
    | write a v =>
      have hne : a ≠ addr := by
        intro ha
        exact h (WireEvent.write a v) (List.mem_cons_self _ _) v (by rw [ha])
      simp only [hne, if_false]
      exact ih hrest acc

theorem lastWrite_range_writes (base : Nat) (g : Nat → Nat) (w : List WireEvent) :
    ∀ (m i : Nat), i < m →
      lastWrite (w ++ (List.range m).map (fun j => WireEvent.write (base + j) (g j)))
        (base + i) = some (g i) := by
  intro m
  induction m with
  | zero => intro i hi; omega
  | succ m ih =>
    intro i hi
    rw [List.range_succ, List.map_append, ← List.append_assoc, List.map_singleton,
      lastWrite_append_single]
    by_cases him : i = m
    · subst him
      simp
    · have hne : base + m ≠ base + i := by omega
      simp only [hne, if_false]
      exact ih i (by omega)

set_option maxRecDepth 100000 in
theorem dotFlag_small : ∀ y, y < 256 → y &&& 0x80 = 0 ∨ y &&& 0x80 = 0x80 := by
  decide

theorem dotFlag_cases (c : Nat) : c &&& 0x80 = 0 ∨ c &&& 0x80 = 0x80 := by
  have h := dotFlag_small (c % 256) (Nat.mod_lt _ (by decide))
  rw [← and_mask_mod c 0x80 (by decide)] at h
  exact h

theorem fillsDigits_spec (n : Nat) (text : List Nat) (h : fillsDigits n text = true) :
    ∀ i, i < n → text.getD i 0 &&& 0b01111111 ≠ 0 := by
  intro i hi
  simp only [fillsDigits, List.all_eq_true, List.mem_range] at h
  have := h i hi
  simpa using this

theorem mirror_after_write (n len : Nat) (hn : n ≤ len) (t : TM1650) (hinv : mirrorInv n len t)
    (pos v : Nat) (hpos : pos < n) :
    mirrorInv n len
      (send (TM1650_DISPLAY_BASE + pos) v { t with iBuffer := t.iBuffer.set pos v }) := by
  obtain ⟨ha, hnd, hl, hm⟩ := hinv
  refine ⟨ha, hnd, by simpa [send] using hl, ?_⟩
  intro i hi
  simp only [mirrorsUpToDot, getPosition, send]
  rw [lastWrite_append_single]
  by_cases hip : pos = i
  · subst hip
    refine ⟨v, by simp, Or.inl ?_⟩
    rw [getD_set_self _ _ _ (by omega)]
  · have hne : TM1650_DISPLAY_BASE + pos ≠ TM1650_DISPLAY_BASE + i := by omega
    simp only [hne, if_false]
    rw [getD_set_other _ _ _ _ hip]
    exact hm i hi

theorem mirror_after_displayString (n len : Nat) (hn : n ≤ len) (T : List Nat) (t : TM1650)
    (ha : t.iActive = true) (hnd : t.iNumDigits = n) (hl : t.iBuffer.length = len)
    (hfill : fillsDigits n T = true) :
    mirrorInv n len (displayString T t) := by
  obtain ⟨_, _, f3, f4, _, _, f7⟩ := displayString_frame T t
  refine ⟨f4.trans ha, f3.trans hnd, f7.trans hl, ?_⟩
  intro i hi
  have hnz := fillsDigits_spec n T hfill
  obtain ⟨w1, w2⟩ := displayString_window T t n i ha (by omega) (by omega) hnz
    (fun hlt => by omega) hi
  refine ⟨_, w2, ?_⟩
  rw [w1]
  rcases dotFlag_cases (T.getD i 0) with h0 | h1
  · left
    rw [h0, Nat.or_zero]
  · right
    rw [h1]

theorem strlen_ge_of_nonzero (a : List Nat) (n : Nat) (h : ∀ i, i < n → a.getD i 0 ≠ 0) :
    n ≤ strlen a := by
  by_contra hlt
  exact h (strlen a) (by omega) (strlen_terminator a)

theorem fillsDigits_scrollBuffer (n : Nat) (hn : n ≤ 16) (aString old : List Nat)
    (h : fillsDigits n aString = true) :
    fillsDigits n ((strncpy aString (TM1650_MAX_STRING + 1) ++
      old.drop (TM1650_MAX_STRING + 1)).set TM1650_MAX_STRING 0) = true := by
  have hnz := fillsDigits_spec n aString h
  have hlen : n ≤ strlen aString := by
    apply strlen_ge_of_nonzero
    intro i hi h0
    have := hnz i hi
    rw [h0] at this
    exact this rfl
  have hl := strncpy_length aString (TM1650_MAX_STRING + 1)
  simp only [TM1650_MAX_STRING] at hl ⊢
  simp only [fillsDigits, List.all_eq_true, List.mem_range]
  intro i hi
  rw [getD_set_other _ _ _ _ (by omega), List.getD_append _ _ _ _ (by omega),
    strncpy_getD _ _ _ (by omega), takeWhile_getD_eq aString i (by omega)]
  simpa using hnz i hi

theorem mirror_step (n len : Nat) (hn : n ≤ len) (hn16 : n ≤ 16) (op : Op) (t : TM1650)
    (hinv : mirrorInv n len t) (hop : op.showsFull t = true) :
    ∃ t1, op.apply t = some t1 ∧ mirrorInv n len t1 := by
  have hinv0 := hinv
  obtain ⟨ha, hnd, hl, hm⟩ := hinv
  cases op with
  | init ack => simp [Op.showsFull] at hop
  | displayOn => simp [Op.showsFull] at hop
  | displayOff => simp [Op.showsFull] at hop
  | displayState aState => simp [Op.showsFull] at hop
  | setBrightness aValue => simp [Op.showsFull] at hop
  | setBrightnessGradually aValue => simp [Op.showsFull] at hop
  | controlPosition aPos aValue => simp [Op.showsFull] at hop
  | clear =>
    refine ⟨clear t, rfl, ?_⟩
    obtain ⟨c1, c2, _, _, f3, f4, _, _, f7⟩ := clear_spec t ha (by omega)
    refine ⟨f4.trans ha, f3.trans hnd, f7.trans hl, ?_⟩
    intro i hi
    refine ⟨0, ?_, Or.inl ?_⟩
    · rw [c1, hnd]
      exact lastWrite_range_writes TM1650_DISPLAY_BASE (fun _ => 0) t.wire n i hi
    · simp only [getPosition]
      rw [c2 i, if_pos (by omega)]
  | setPosition aPos aValue =>
    refine ⟨setPosition aPos aValue t, rfl, ?_⟩
    by_cases hp : aPos < t.iNumDigits
    · rw [setPosition_spec aPos aValue t ha hp]
      exact mirror_after_write n len hn t hinv0 aPos aValue (by omega)
    · rw [setPosition_ignored aPos aValue t (fun h => hp h.2)]
      exact hinv0
  | setDot aPos aState =>
    have hp : aPos < t.iNumDigits := by simpa [Op.showsFull] using hop
    refine ⟨_, setDot_spec aPos aState t ha hp (by omega), ?_⟩
    exact mirror_after_write n len hn t hinv0 aPos _ (by omega)
  | displayString aString =>
    have hfill : fillsDigits n aString = true := by
      simpa [Op.showsFull, hnd] using hop
    exact ⟨displayString aString t, rfl,
      mirror_after_displayString n len hn aString t ha hnd hl hfill⟩
  | displayRunning aString =>
    have hfill : fillsDigits n aString = true := by
      simpa [Op.showsFull, hnd] using hop
    refine ⟨(displayRunning aString t).1, rfl, ?_⟩
    rw [displayRunning_state]
    refine mirror_after_displayString n len hn _ _ (by exact ha) (by exact hnd) (by exact hl) ?_
    simp only [cursorText, List.drop_zero]
    exact fillsDigits_scrollBuffer n hn16 aString t.iString hfill
  | displayRunningShift =>
    cases hpos : t.iPosition with
    | none => simp [Op.showsFull, hpos] at hop
    | some off =>
      simp only [Op.showsFull, hpos, Bool.or_eq_true, decide_eq_true_eq] at hop
      simp only [Op.apply, displayRunningShift_eq t off hpos]
      by_cases hfit : strlen (cursorText off t) ≤ t.iNumDigits
      · rw [if_pos hfit]
        exact ⟨t, rfl, hinv0⟩
      · rw [if_neg hfit]
        refine ⟨_, rfl, ?_⟩
        rcases hop with h | h
        · exact absurd h hfit
        · rw [hnd] at h
          exact mirror_after_displayString n len hn _ _ (by exact ha) (by exact hnd)
            (by exact hl) h

theorem mirror_run (n len : Nat) (hn : n ≤ len) (hn16 : n ≤ 16) :
    ∀ (ops : List Op) (t : TM1650), mirrorInv n len t → showsFullSeq ops t = true →
      ∃ r, run ops t = some r ∧ mirrorInv n len r := by
  intro ops
  induction ops with
  | nil =>
    intro t hinv _
    exact ⟨t, rfl, hinv⟩
  | cons op rest ih =>
    intro t hinv hg
    simp only [showsFullSeq, Bool.and_eq_true] at hg
    obtain ⟨t1, e1, hinv1⟩ := mirror_step n len hn hn16 op t hinv hg.1
    have hrest : showsFullSeq rest t1 = true := by
      have := hg.2
      rw [e1] at this
      exact this
    obtain ⟨r, e2, h2⟩ := ih t1 hinv1 hrest
    exact ⟨r, by simp only [run, e1, e2], h2⟩

theorem mirror_after_init (s : TM1650) (hb : s.iNumDigits ≤ s.iBuffer.length)
    (hc : s.iNumDigits ≤ s.iCtrl.length) (h16 : s.iNumDigits ≤ 16) :
    mirrorInv s.iNumDigits s.iBuffer.length (init true s) := by
  obtain ⟨a1, a2, _, _, a5, a6, a7, _, _⟩ := init_acked_spec s hb hc
  refine ⟨a5, a6, a7, ?_⟩
  intro i hi
  refine ⟨0, ?_, Or.inl ?_⟩
  · rw [a1, lastWrite_append_other]
    · exact lastWrite_range_writes TM1650_DISPLAY_BASE (fun _ => 0) _ s.iNumDigits i hi
    · intro e he v hev
      simp only [List.mem_map, List.mem_range] at he
      obtain ⟨j, hj, hje⟩ := he
      rw [hev] at hje
      simp only [WireEvent.write.injEq, TM1650_DCTRL_BASE, TM1650_DISPLAY_BASE] at hje
      omega
  · simp only [getPosition]
    rw [a2 i hi]

/-- C18 (as stated) fails: after a successful `init()` on four digits,
`displayString` of 'A' with its high bit set (followed by "BCD") writes 0xF7 to
register 0x34 and keeps 0x77 in the mirror of position 0. -/
theorem mirror_drops_dot_counterexample :
    (run [Op.displayString [0xC1, 0x42, 0x43, 0x44]] (init true ready4)).map (getPosition 0) =
        some 0x77 ∧
      (run [Op.displayString [0xC1, 0x42, 0x43, 0x44]] (init true ready4)).map
        (fun r => lastWrite r.wire (0x34 + 0)) = some (some 0xF7) ∧
      (0xF7 : Nat) ≠ 0x77 := by
  decide!

/-- C18 (as the code has it): from a successful `init()`, along any sequence of
`clear`, `setPosition`, `setDot` at a digit position, and `displayString`,
`displayRunning`, `displayRunningShift` on text windows that fill all digits,
every call returns and, for every digit, the last byte written to `0x34 + i`
is the mirrored byte or the mirrored byte with bit 7 added: the mirror is
faithful up to the decimal-point flag that `displayString` keeps out of it. -/
theorem mirror_faithful_up_to_dot (s : TM1650) (ops : List Op) (hwf : WF s)
    (hops : showsFullSeq ops (init true s) = true) :
    ∃ r, run ops (init true s) = some r ∧ r.iNumDigits = s.iNumDigits ∧
      ∀ i, i < r.iNumDigits →
        ∃ w, lastWrite r.wire (0x34 + i) = some w ∧
          (w = getPosition i r ∨ w = getPosition i r ||| 0x80) := by
  obtain ⟨h16, hbuf, hctrl, _⟩ := hwf
  simp only [TM1650_NUM_DIGITS] at h16 hbuf hctrl
  have h0 := mirror_after_init s (by omega) (by omega) h16
  obtain ⟨r, e, _, hn, _, hm⟩ :=
    mirror_run s.iNumDigits s.iBuffer.length (by omega) h16 ops (init true s) h0 hops
  refine ⟨r, e, hn, ?_⟩
  intro i hi
  exact hm i (by omega)

/-- C18 (as the code has it) on the four-digit display, for a sequence that
shows a dotted text, sets a dot, scrolls, clears and writes a raw byte. -/
theorem mirror_faithful_up_to_dot_witness :
    WF ready4 ∧
      showsFullSeq [Op.displayString [0xC1, 0x42, 0x43, 0x44], Op.setDot 1 true,
        Op.displayRunning helloWorld, Op.displayRunningShift, Op.clear,
        Op.setPosition 2 0x5B] (init true ready4) = true ∧
      ∃ r, run [Op.displayString [0xC1, 0x42, 0x43, 0x44], Op.setDot 1 true,
          Op.displayRunning helloWorld, Op.displayRunningShift, Op.clear,
          Op.setPosition 2 0x5B] (init true ready4) = some r ∧
        r.iNumDigits = ready4.iNumDigits :=
  ⟨by decide!, by decide!,
    match mirror_faithful_up_to_dot ready4
      [Op.displayString [0xC1, 0x42, 0x43, 0x44], Op.setDot 1 true,
        Op.displayRunning helloWorld, Op.displayRunningShift, Op.clear,
        Op.setPosition 2 0x5B] (by decide!) (by decide!) with
    | ⟨r, h1, h2, _⟩ => ⟨r, h1, h2⟩⟩

/-! ## Digit count and brightness along any sequence of calls -/

theorem new_digits (aNumDigits : Nat) (mem : TM1650) :
    getNumPositions (new aNumDigits mem) = min aNumDigits 16 ∧
      getNumPositions (new aNumDigits mem) ≤ 16 ∧
      (new aNumDigits mem).iBrightness = mem.iBrightness := by
  simp only [getNumPositions, new, TM1650_NUM_DIGITS]
  refine ⟨?_, ?_, trivial⟩ <;> split <;> omega

theorem clear_keeps_level (t : TM1650) :
    (clear t).iNumDigits = t.iNumDigits ∧ (clear t).iBrightness = t.iBrightness := by
  unfold clear
  split
  · exact ⟨rfl, rfl⟩
  · exact forLoop_invariant
      (fun r => r.iNumDigits = t.iNumDigits ∧ r.iBrightness = t.iBrightness) clearBody
      (fun i r h => h) _ t ⟨rfl, rfl⟩

theorem displayOn_keeps_level (t : TM1650) :
    (displayOn t).iNumDigits = t.iNumDigits ∧ (displayOn t).iBrightness = t.iBrightness := by
  unfold displayOn
  split
  · exact ⟨rfl, rfl⟩
  · exact forLoop_invariant
      (fun r => r.iNumDigits = t.iNumDigits ∧ r.iBrightness = t.iBrightness) displayOnBody
      (fun i r h => h) _ t ⟨rfl, rfl⟩

theorem displayOff_keeps_level (t : TM1650) :
    (displayOff t).iNumDigits = t.iNumDigits ∧ (displayOff t).iBrightness = t.iBrightness := by
  unfold displayOff
  split
  · exact ⟨rfl, rfl⟩
  · exact forLoop_invariant
      (fun r => r.iNumDigits = t.iNumDigits ∧ r.iBrightness = t.iBrightness) displayOffBody
      (fun i r h => h) _ t ⟨rfl, rfl⟩

theorem init_keeps_level (ack : Bool) (t : TM1650) :
    (init ack t).iNumDigits = t.iNumDigits ∧ (init ack t).iBrightness = t.iBrightness := by
  rw [init_eq]
  have h0 := forLoop_invariant
    (fun r => r.iNumDigits = t.iNumDigits ∧ r.iBrightness = t.iBrightness) initBody
    (fun i r h => h) t.iNumDigits { t with iPosition := none } ⟨rfl, rfl⟩
  obtain ⟨a1, a2⟩ := displayOn_keeps_level (clear
    { forLoop t.iNumDigits initBody { t with iPosition := none } with
      wire := (forLoop t.iNumDigits initBody { t with iPosition := none }).wire ++
        [WireEvent.probe TM1650_DISPLAY_BASE],
      iActive := ack })
  obtain ⟨b1, b2⟩ := clear_keeps_level
    { forLoop t.iNumDigits initBody { t with iPosition := none } with
      wire := (forLoop t.iNumDigits initBody { t with iPosition := none }).wire ++
        [WireEvent.probe TM1650_DISPLAY_BASE],
      iActive := ack }
  exact ⟨a1.trans (b1.trans h0.1), a2.trans (b2.trans h0.2)⟩

theorem setBrightness_keeps_level (v : Nat) (t : TM1650) :
    (setBrightness v t).iNumDigits = t.iNumDigits ∧
      ((setBrightness v t).iBrightness ≤ 7 ∨ (setBrightness v t).iBrightness = t.iBrightness) := by
  unfold setBrightness
  split
  · exact ⟨rfl, Or.inr rfl⟩
  · have h := forLoop_invariant
      (fun r => r.iNumDigits = t.iNumDigits ∧ r.iBrightness ≤ 7) setBrightnessBody
      (fun i r h => h) t.iNumDigits
      { t with iBrightness := if v > TM1650_MAX_BRIGHT then TM1650_MAX_BRIGHT else v }
      ⟨rfl, by
        show (if v > TM1650_MAX_BRIGHT then TM1650_MAX_BRIGHT else v) ≤ 7
        simp only [TM1650_MAX_BRIGHT]
        split <;> omega⟩
    exact ⟨h.1, Or.inl h.2⟩

theorem gradualLoop_keeps_level (aValue : Nat) (up : Bool) (n b0 : Nat) :
    ∀ (fuel i : Nat) (t r : TM1650), levelInv n b0 t →
      gradualLoop aValue up fuel i t = some r → levelInv n b0 r := by
  intro fuel
  induction fuel with
  | zero => intro i t r _ h; simp [gradualLoop] at h
  | succ fuel ih =>
    intro i t r hinv h
    have hstep : levelInv n b0 (fadeStep i t) := by
      obtain ⟨h1, h2⟩ := setBrightness_keeps_level i t
      refine ⟨h1.trans hinv.1, ?_⟩
      rcases h2 with h2 | h2
      · exact Or.inl h2
      · have h3 : (fadeStep i t).iBrightness = t.iBrightness := h2
        rw [h3]
        exact hinv.2
    rw [gradualLoop_succ] at h
    generalize (if up then (i + 1) % 256 else (i + 255) % 256) = i1 at h
    by_cases hne : i1 ≠ aValue
    · rw [if_pos hne] at h
      exact ih i1 _ r hstep h
    · rw [if_neg hne] at h
      simp only [Option.some.injEq] at h
      rw [← h]
      exact hstep

theorem level_step (n b0 : Nat) (op : Op) (t t1 : TM1650) (hinv : levelInv n b0 t)
    (h : op.apply t = some t1) : levelInv n b0 t1 := by
  have keep : ∀ r : TM1650, r.iNumDigits = t.iNumDigits ∧ r.iBrightness = t.iBrightness →
      levelInv n b0 r := by
    intro r hr
    refine ⟨hr.1.trans hinv.1, ?_⟩
    rw [hr.2]
    exact hinv.2
  have hsetPos : ∀ (p v : Nat) (u : TM1650),
      (setPosition p v u).iNumDigits = u.iNumDigits ∧
        (setPosition p v u).iBrightness = u.iBrightness := by
    intro p v u
    unfold setPosition
    split
    · exact ⟨rfl, rfl⟩
    · split <;> exact ⟨rfl, rfl⟩
  cases op with
  | init ack =>
    simp only [Op.apply, Option.some.injEq] at h
    rw [← h]
    exact keep _ (init_keeps_level ack t)
  | clear =>
    simp only [Op.apply, Option.some.injEq] at h
    rw [← h]
    exact keep _ (clear_keeps_level t)
  | displayOn =>
    simp only [Op.apply, Option.some.injEq] at h
    rw [← h]
    exact keep _ (displayOn_keeps_level t)
  | displayOff =>
    simp only [Op.apply, Option.some.injEq] at h
    rw [← h]
    exact keep _ (displayOff_keeps_level t)
  | displayState aState =>
    simp only [Op.apply, Option.some.injEq] at h
    rw [← h]
    cases aState with
    | true => exact keep _ (displayOn_keeps_level t)
    | false => exact keep _ (displayOff_keeps_level t)
  | displayString aString =>
    simp only [Op.apply, Option.some.injEq] at h
    rw [← h]
    obtain ⟨_, _, f3, _, f5, _, _⟩ := displayString_frame aString t
    exact keep _ ⟨f3, f5⟩
  | displayRunning aString =>
    simp only [Op.apply, Option.some.injEq] at h
    rw [← h, displayRunning_state]
    obtain ⟨_, _, f3, _, f5, _, _⟩ := displayString_frame
      (cursorText 0 { t with iString := (strncpy aString (TM1650_MAX_STRING + 1) ++ t.iString.drop (TM1650_MAX_STRING + 1)).set TM1650_MAX_STRING 0, iPosition := some 0 })
      { t with iString := (strncpy aString (TM1650_MAX_STRING + 1) ++ t.iString.drop (TM1650_MAX_STRING + 1)).set TM1650_MAX_STRING 0, iPosition := some 0 }
    exact keep _ ⟨f3, f5⟩
  | displayRunningShift =>
    cases hp : t.iPosition with
    | none => simp [Op.apply, displayRunningShift, hp] at h
    | some off =>
      simp only [Op.apply, displayRunningShift_eq t off hp] at h
      split at h
      · simp only [Option.map_some', Option.some.injEq] at h
        rw [← h]
        exact hinv
      · simp only [Option.map_some', Option.some.injEq] at h
        rw [← h]
        obtain ⟨_, _, f3, _, f5, _, _⟩ := displayString_frame (cursorText (off + 1) t)
          { t with iPosition := some (off + 1) }
        exact keep _ ⟨f3, f5⟩
  | setBrightness aValue =>
    simp only [Op.apply, Option.some.injEq] at h
    rw [← h]
    obtain ⟨h1, h2⟩ := setBrightness_keeps_level aValue t
    refine ⟨h1.trans hinv.1, ?_⟩
    rcases h2 with h2 | h2
    · exact Or.inl h2
    · rw [h2]
      exact hinv.2
  | setBrightnessGradually aValue =>
    simp only [Op.apply, setBrightnessGradually] at h
    split at h
    · simp only [Option.some.injEq] at h
      rw [← h]
      exact hinv
    · exact gradualLoop_keeps_level _ _ n b0 _ _ t t1 hinv h
  | controlPosition aPos aValue =>
    simp only [Op.apply, Option.some.injEq] at h
    rw [← h]
    apply keep
    unfold controlPosition
    split
    · exact ⟨rfl, rfl⟩
    · split <;> exact ⟨rfl, rfl⟩
  | setPosition aPos aValue =>
    simp only [Op.apply, Option.some.injEq] at h
    rw [← h]
    exact keep _ (hsetPos aPos aValue t)
  | setDot aPos aState =>
    simp only [Op.apply, setDot] at h
    split at h
    · simp only [Option.some.injEq] at h
      rw [← h]
      exact keep _ (hsetPos _ _ _)
    · cases h

/-- Along any sequence of calls that returns, `init` included, the digit count
stays what the constructor made it, and the brightness is in 0..7 or still the
byte the storage held before construction. -/
theorem level_along_run (aNumDigits : Nat) (mem : TM1650) :
    ∀ (ops : List Op) (t r : TM1650), levelInv (min aNumDigits 16) mem.iBrightness t →
      run ops t = some r →
      getNumPositions r = min aNumDigits 16 ∧ getNumPositions r ≤ 16 ∧
        (getBrightness r ≤ 7 ∨ getBrightness r = mem.iBrightness) := by
  intro ops
  induction ops with
  | nil =>
    intro t r hinv h
    simp only [run, Option.some.injEq] at h
    rw [← h]
    exact ⟨hinv.1, by rw [getNumPositions, hinv.1]; omega, hinv.2⟩
  | cons op rest ih =>
    intro t r hinv h
    simp only [run] at h
    cases h1 : op.apply t with
    | none => simp [h1] at h
    | some t1 =>
      rw [h1] at h
      exact ih t1 r (level_step _ _ op t t1 hinv h1) h

set_option maxRecDepth 10000 in
/-- C20 fails on the code: neither the constructor nor `init()` assigns
`iBrightness`, so on a driver built over storage whose brightness byte is 200
`getBrightness()` is 200 right after a successful `init()`, and still 200
after `setBrightness(3)` when the probe failed; the digit count is
`min requested 16` throughout. -/
theorem init_leaves_brightness_unset :
    getNumPositions (init true (new 4 rawStorage)) = 4 ∧
      getNumPositions (init true (new 255 rawStorage)) = 16 ∧
      rawStorage.iBrightness = 200 ∧
      getBrightness (init true (new 4 rawStorage)) = 200 ∧
      getBrightness (setBrightness 3 (init false (new 4 rawStorage))) = 200 ∧
      ¬ (getBrightness (init true (new 4 rawStorage)) ≤ 7) := by
  decide

end TM1650
